import Mathlib

/-!
# Verification of the mock-harbor configuration-driven HTTP mock server

Shallow embedding of the Go sources (internal/handler, internal/server,
internal/hotreload, internal/validation, internal/config) and proofs about
the embedded operations.  Machine integers are modelled as `Int` (no field
here ever approaches overflow), filesystem reads are modelled as an
explicit environment, and `rand.Intn n` is modelled by `r % n` for an
arbitrary supplied natural `r` (whose image is exactly `[0, n)`).
-/

namespace MockHarbor



/-! ## String helpers

Kernel-reducible models of the Go standard-library string operations the
sources use (`strings.HasSuffix`, `strings.ToUpper` on ASCII,
`strings.Split` on the path separator, `filepath` base/dir on clean Unix
paths). -/

/-- Model of `strings.HasSuffix s suffix`. -/
def strEndsWith (s suffix : String) : Bool :=
  suffix.data.isSuffixOf s.data

/-- Model of `strings.ToUpper s` (the sources only upper-case ASCII method names). -/
def strToUpper (s : String) : String :=
  ⟨s.data.map Char.toUpper⟩

/-- Model of `strings.Split s "/"`: split on every occurrence of the path
separator; `splitPath "" = [""]` as in Go. -/
def splitPath (s : String) : List String :=
  (s.data.foldr (fun c acc => if c = '/' then [] :: acc else (c :: acc.headD []) :: acc.tail)
    [[]]).map (fun l => ⟨l⟩)

/-! ## Delay configuration (internal/config: DelayConfig;
internal/handler: MockHandler.calculateDelay) -/

/-- Model of `config.DelayConfig`: fixed/min/max are Go `int` (milliseconds),
modelled as `Int`. -/
structure DelayConfig where
  fixed : Int
  min : Int
  max : Int
  enabled : Bool
deriving DecidableEq, Repr

/-- Model of `MockHandler.calculateDelay` (handler.go).  The handler's delay config
is a possibly-nil pointer, hence `Option DelayConfig`.  The source draws
`rand.Intn(max-min+1)`; the random draw is modelled by `r % (max-min+1)`
for a caller-supplied `r : Nat`, which ranges over exactly the interval
`[0, max-min+1)` that `rand.Intn` ranges over. -/
def calculateDelay (cfg : Option DelayConfig) (r : Nat) : Int :=
  match cfg with
  | none => 0
  | some c =>
    if ¬ c.enabled then 0
    else if c.fixed > 0 then c.fixed
    else if 0 ≤ c.min ∧ c.max > c.min then c.min + (r : Int) % (c.max - c.min + 1)
    else 0

/-! ## Debounce (internal/server/server.go: ConfigWatcher.debounceEvent)

The watcher keeps, per path, the time of the most recent event
(`recentEvents`).  On an event at time `t` for a path whose previous event
was less than `debounceDelay` ago, it schedules a timer at `t + d` which
fires the callback iff the most recent recorded event at that moment is
still `≤ t`; otherwise (first event for the path, or previous event at
least `d` ago) it fires the callback immediately.

`debounceFires d prev ts` returns the multiset of times at which the
callback fires for one path, given the (nondecreasing) event times `ts`
and the previously recorded event time `prev` for that path.  An event at
exactly `t + d` is taken to be recorded before the timer scheduled for
`t + d` runs (the Go code leaves this tie to the scheduler; the theorems
below never depend on the tie). -/
def debounceFires (d : Nat) : Option Nat → List Nat → List Nat
  | _, [] => []
  | none, t :: rest => t :: debounceFires d (some t) rest
  | some p, t :: rest =>
    if d ≤ t - p then
      t :: debounceFires d (some t) rest
    else
      (match rest with
        | [] => [t + d]
        | u :: _ => if t + d < u then [t + d] else []) ++ debounceFires d (some t) rest

/-! ## Path classification (internal/server/server.go:
ConfigWatcher.classifyConfigFile) -/

/-- Body of `ConfigWatcher.classifyConfigFile` after
`strings.Split(relPath, separator)`: classification of the parts list.
Returns `(serviceID, configType)`. -/
def classifyParts (parts : List String) : String × String :=
  if parts.length = 1 ∧ (parts.getD 0 "" = "config.yaml" ∨ parts.getD 0 "" = "config.yml") then
    ("", "global")
  else if parts.length ≥ 2 then
    let serviceID := parts.getD 0 ""
    if parts.length = 2 ∧ (parts.getD 1 "" = "config.yaml" ∨ parts.getD 1 "" = "config.yml") then
      (serviceID, "service")
    else if parts.length ≥ 4 ∧ parts.getD 1 "" = "usecases"
        ∧ strEndsWith (parts.getLastD "") ".json" then
      (serviceID, "mock")
    else
      (serviceID, "unknown")
  else
    ("", "unknown")

/-- Model of `ConfigWatcher.classifyConfigFile` on the path relative to the config
root (Unix path separator). -/
def classifyConfigFile (relPath : String) : String × String :=
  classifyParts (splitPath relPath)

/-! ## Hot-reload change dispatch (internal/hotreload/hotreload.go) -/

/-- Model of `watcher.ConfigChangeEvent` (the `ModTime` field is never consulted by
the consumer and is omitted). -/
structure ConfigChangeEvent where
  path : String
  isDeleted : Bool
  serviceId : String
  configType : String
deriving DecidableEq, Repr

/-- The reload operation `HotReloader.handleConfigChange` invokes on the
server manager. -/
inductive ReloadAction where
  | noAction
  | reloadGlobalAction
  | reloadServiceAction (serviceId : String) (usecase : String)
deriving DecidableEq, Repr

/-- Model of `getServiceUsecase` (hotreload.go): the source ignores both arguments
and returns the hardcoded placeholder `"default"` with a nil error. -/
def getServiceUsecase (_configRoot _serviceId : String) : String :=
  "default"

/-- Model of `extractUsecaseFromPath` (hotreload.go):
`filepath.Base(filepath.Dir(path))`, i.e. the second-to-last path segment
(modelled on already-clean Unix paths; for a bare file name
`filepath.Dir` is `"."` and so is the result). -/
def extractUsecaseFromPath (path : String) : String :=
  ((splitPath path).dropLast).getLastD "."

/-- Model of `HotReloader.handleConfigChange` (hotreload.go), as the reload
operation it dispatches to the `ServerManager`. -/
def handleConfigChange (configRoot : String) (event : ConfigChangeEvent) : ReloadAction :=
  if event.isDeleted then .noAction
  else if event.configType = "global" then .reloadGlobalAction
  else if event.configType = "service" then
    .reloadServiceAction event.serviceId (getServiceUsecase configRoot event.serviceId)
  else if event.configType = "mock" then
    let usecase := extractUsecaseFromPath event.path
    if usecase = "" then .noAction
    else .reloadServiceAction event.serviceId usecase
  else .noAction

/-- Spec-shaped classifier for the amended C9 claim: classification by the
shape of the split path, with mock-set files allowed at any depth of at
least one directory below a `usecases/<usecase>` directory. -/
def classifySpec (parts : List String) : String × String :=
  match parts with
  | [] => ("", "unknown")
  | [p] =>
    if p = "config.yaml" ∨ p = "config.yml" then ("", "global") else ("", "unknown")
  | [s, p] =>
    if p = "config.yaml" ∨ p = "config.yml" then (s, "service") else (s, "unknown")
  | s :: p :: q :: rest =>
    if p = "usecases" ∧ rest ≠ [] ∧ strEndsWith (rest.getLastD q) ".json" then (s, "mock")
    else (s, "unknown")

inductive JsonValue where
  | null
  | bool (b : Bool)
  | num (x : Rat)
  | str (s : String)
  | arr (elems : List JsonValue)
  | obj (fields : List (String × JsonValue))
deriving Repr

def lookupKey : List (String × JsonValue) → String → Option JsonValue
  | [], _ => none
  | (k, v) :: rest, key => if k = key then some v else lookupKey rest key

mutual

def deepEqual : JsonValue → JsonValue → Bool
  | .null, y => match y with | .null => true | _ => false
  | .bool a, y => match y with | .bool b => a == b | _ => false
  | .num a, y => match y with | .num b => a == b | _ => false
  | .str a, y => match y with | .str b => a == b | _ => false
  | .arr a, y => match y with | .arr b => deepEqualList a b | _ => false
  | .obj a, y => match y with | .obj b => a.length == b.length && deepEqualObj a b | _ => false

def deepEqualList : List JsonValue → List JsonValue → Bool
  | [], [] => true
  | x :: xs, y :: ys => deepEqual x y && deepEqualList xs ys
  | _, _ => false

def deepEqualObj : List (String × JsonValue) → List (String × JsonValue) → Bool
  | [], _ => true
  | (k, v) :: rest, b =>
    (match lookupKey b k with
     | some w => deepEqual v w
     | none => false) && deepEqualObj rest b
end

mutual

def matchesValue (rv : JsonValue) (ev : JsonValue) : Bool :=
  match ev with
  | .obj em =>
    (match rv with
     | .obj rm => matchesMockBody rm em
     | _ => false)
  | _ => deepEqual rv ev
termination_by sizeOf ev

def matchesMockBody : List (String × JsonValue) → List (String × JsonValue) → Bool
  | _, [] => true
  | received, (key, ev) :: rest =>
    (match lookupKey received key with
     | none => false
     | some rv => matchesValue rv ev) && matchesMockBody received rest
termination_by r e => sizeOf e
end

def keys (f : List (String × JsonValue)) : List String := f.map Prod.fst

def strictSorted : List String → Bool
  | [] => true
  | [_] => true
  | a :: b :: rest => (decide (a < b)) && strictSorted (b :: rest)

def sortedKeys (f : List (String × JsonValue)) : Bool := strictSorted (keys f)

mutual

def canonical : JsonValue → Bool
  | .null => true
  | .bool _ => true
  | .num _ => true
  | .str _ => true
  | .arr l => canonicalList l
  | .obj f => sortedKeys f && canonicalObj f

def canonicalList : List JsonValue → Bool
  | [] => true
  | x :: xs => canonical x && canonicalList xs

def canonicalObj : List (String × JsonValue) → Bool
  | [] => true
  | (_, v) :: rest => canonical v && canonicalObj rest
end

mutual

inductive SpecValueMatch : JsonValue → JsonValue → Prop where
  | objCase (rm em : List (String × JsonValue)) :
      SpecBodyMatch rm em → SpecValueMatch (.obj rm) (.obj em)
  | leafCase (rv ev : JsonValue) :
      (∀ em : List (String × JsonValue), ev ≠ .obj em) → rv = ev → SpecValueMatch rv ev

inductive SpecBodyMatch : List (String × JsonValue) → List (String × JsonValue) → Prop where
  | intro (received expected : List (String × JsonValue)) :
      (∀ k ev, (k, ev) ∈ expected → (lookupKey received k).isSome = true) →
      (∀ k ev rv, (k, ev) ∈ expected → lookupKey received k = some rv →
        SpecValueMatch rv ev) →
      SpecBodyMatch received expected
end

structure RequestConfig where
  path : String
  method : String
  body : Option (List (String × JsonValue))

structure ResponseConfig where
  body : Option (List (String × JsonValue))
  statusCode : Int
  headers : List (String × String)

structure MockConfig where
  request : RequestConfig
  response : ResponseConfig

structure HttpRequest where
  method : String
  urlPath : String
  body : Option (List (String × JsonValue))

def mockMatches (r : HttpRequest) (mock : MockConfig) : Bool :=
  r.urlPath == mock.request.path && r.method == mock.request.method &&
    (match mock.request.body with
     | none => true
     | some expected =>
       match r.body with
       | none => false
       | some requestBody => matchesMockBody requestBody expected)

def findMatchingMock (mocks : List MockConfig) (r : HttpRequest) : Option MockConfig :=
  mocks.find? (fun m => mockMatches r m)

inductive ResponseBody where
  | text (s : String)
  | jsonObj (b : Option (List (String × JsonValue)))

structure ServedResponse where
  statusCode : Int
  headers : List (String × String)
  body : ResponseBody

def serveHTTP (mocks : List MockConfig) (r : HttpRequest) : ServedResponse :=
  match findMatchingMock mocks r with
  | none => ⟨404, [], .text "No matching mock found"⟩
  | some m => ⟨m.response.statusCode, m.response.headers, .jsonObj m.response.body⟩

def baseName (path : String) : String :=
  (splitPath path).getLastD "."

structure ServiceReference where
  name : String
  usecase : String
deriving DecidableEq, Repr

structure GlobalConfig where
  services : List ServiceReference
deriving DecidableEq, Repr

structure ServiceConfig where
  port : Int
  name : String
  delay : DelayConfig
deriving DecidableEq, Repr

structure ValidationError where
  file : String
  field : String
  message : String
deriving DecidableEq, Repr

def validateRefs (fileName : String) : Nat → List String → List ServiceReference →
    List ValidationError
  | _, _, [] => []
  | i, seen, ref :: rest =>
    (if ref.name = "" then
      [⟨fileName, "services[" ++ Nat.repr i ++ "].name", "service name cannot be empty"⟩]
     else []) ++
    (if ref.usecase = "" then
      [⟨fileName, "services[" ++ Nat.repr i ++ "].usecase", "usecase cannot be empty"⟩]
     else []) ++
    (if seen.contains ref.name then
      [⟨fileName, "services[" ++ Nat.repr i ++ "].name", "duplicate service name"⟩]
     else []) ++
    validateRefs fileName (i + 1) (ref.name :: seen) rest

def validateGlobalConfig (cfg : GlobalConfig) (filePath : String) : List ValidationError :=
  (if cfg.services.length = 0 then
    [⟨baseName filePath, "services", "no services defined, at least one service must be specified"⟩]
   else []) ++
  validateRefs (baseName filePath) 0 [] cfg.services

def validateServiceConfig (cfg : ServiceConfig) (filePath : String) : List ValidationError :=
  (if cfg.name = "" then
    [⟨baseName filePath, "name", "service name cannot be empty"⟩]
   else []) ++
  (if cfg.port ≤ 0 then
    [⟨baseName filePath, "port", "invalid port number, must be positive"⟩]
   else if cfg.port < 1024 ∨ cfg.port > 65535 then
    [⟨baseName filePath, "port", "port number outside of recommended range (1024-65535)"⟩]
   else [])

def validMethods : List String :=
  ["GET", "POST", "PUT", "DELETE", "PATCH", "HEAD", "OPTIONS"]

def validateMockList (fileName : String) : Nat → List String → List MockConfig →
    List ValidationError
  | _, _, [] => []
  | i, endpoints, mock :: rest =>
    (if mock.request.path = "" then
      [⟨fileName, "[" ++ Nat.repr i ++ "].request.path", "path cannot be empty"⟩]
     else []) ++
    (if mock.request.method = "" then
      [⟨fileName, "[" ++ Nat.repr i ++ "].request.method", "method cannot be empty"⟩]
     else if ¬ validMethods.contains (strToUpper mock.request.method) then
      [⟨fileName, "[" ++ Nat.repr i ++ "].request.method", "invalid HTTP method"⟩]
     else []) ++
    (if endpoints.contains (strToUpper mock.request.method ++ ":" ++ mock.request.path) then
      [⟨fileName, "[" ++ Nat.repr i ++ "].request", "duplicate endpoint"⟩]
     else []) ++
    (if mock.response.statusCode < 100 ∨ mock.response.statusCode > 599 then
      [⟨fileName, "[" ++ Nat.repr i ++ "].response.statusCode", "invalid HTTP status code"⟩]
     else []) ++
    validateMockList fileName (i + 1)
      ((strToUpper mock.request.method ++ ":" ++ mock.request.path) :: endpoints) rest

def validateMockConfigs (mocks : List MockConfig) (filePath : String) : List ValidationError :=
  (if mocks.length = 0 then
    [⟨baseName filePath, "", "no mock configurations found"⟩]
   else []) ++
  validateMockList (baseName filePath) 0 [] mocks

structure MockServer where
  serviceName : String
  port : Int
  mocks : List MockConfig
  delay : DelayConfig

def newMockServer (serviceName : String) (port : Int) (mocks : List MockConfig)
    (svcCfg : ServiceConfig) : MockServer :=
  ⟨serviceName, port, mocks, svcCfg.delay⟩

structure ManagerState where
  configRoot : String
  servers : List MockServer
  serviceMap : List (String × MockServer)
  portMap : List Int

def newServerManager (configRoot : String) : ManagerState :=
  ⟨configRoot, [], [], []⟩

def assocLookup {α : Type} : List (String × α) → String → Option α
  | [], _ => none
  | (k, v) :: rest, key => if k = key then some v else assocLookup rest key

def assocInsert {α : Type} : List (String × α) → String → α → List (String × α)
  | [], k, v => [(k, v)]
  | (k0, v0) :: rest, k, v =>
    if k0 = k then (k, v) :: rest else (k0, v0) :: assocInsert rest k v

def assocErase {α : Type} : List (String × α) → String → List (String × α)
  | [], _ => []
  | (k0, v0) :: rest, k => if k0 = k then rest else (k0, v0) :: assocErase rest k

def removeFirstByName : List MockServer → String → List MockServer
  | [], _ => []
  | s :: rest, n => if s.serviceName = n then rest else s :: removeFirstByName rest n

def portInsert (ps : List Int) (p : Int) : List Int :=
  if ps.contains p then ps else ps ++ [p]

def addServer (st : ManagerState) (server : MockServer) : ManagerState :=
  let st1 :=
    match assocLookup st.serviceMap server.serviceName with
    | some existing =>
      { st with
        servers := removeFirstByName st.servers server.serviceName,
        portMap := st.portMap.erase existing.port }
    | none => st
  { st1 with
    servers := st1.servers ++ [server],
    serviceMap := assocInsert st1.serviceMap server.serviceName server,
    portMap := portInsert st1.portMap server.port }

def removeService (st : ManagerState) (name : String) : ManagerState :=
  match assocLookup st.serviceMap name with
  | none => st
  | some server =>
    { st with
      serviceMap := assocErase st.serviceMap name,
      portMap := st.portMap.erase server.port,
      servers := removeFirstByName st.servers name }

structure ConfigEnv where
  globalCfg : Option GlobalConfig
  serviceCfg : String → Option ServiceConfig
  mockCfgs : String → String → Option (List MockConfig)

def loadServiceConfig (env : ConfigEnv) (serviceName : String) : Option ServiceConfig :=
  match env.serviceCfg serviceName with
  | none => none
  | some cfg => some (if cfg.name = "" then { cfg with name := serviceName } else cfg)

def loadMockConfigs (env : ConfigEnv) (serviceName usecase : String) :
    Option (List MockConfig) :=
  match env.mockCfgs serviceName usecase with
  | none => none
  | some configs => if configs.length = 0 then none else some configs

inductive ReloadError where
  | loadServiceError
  | serviceValidationError
  | loadMocksError
  | mockValidationError
deriving DecidableEq, Repr

def svcConfigPath (st : ManagerState) (serviceName : String) : String :=
  st.configRoot ++ "/" ++ serviceName ++ "/config.yaml"

def mockConfigPath (st : ManagerState) (serviceName usecase : String) : String :=
  st.configRoot ++ "/" ++ serviceName ++ "/usecases/" ++ usecase ++ "/all.json"

def reloadService (env : ConfigEnv) (st : ManagerState) (serviceName usecase : String) :
    ManagerState × Option ReloadError :=
  match loadServiceConfig env serviceName with
  | none => (st, some .loadServiceError)
  | some svcCfg =>
    if validateServiceConfig svcCfg (svcConfigPath st serviceName) ≠ [] then
      (st, some .serviceValidationError)
    else
      match loadMockConfigs env serviceName usecase with
      | none => (st, some .loadMocksError)
      | some mocks =>
        if validateMockConfigs mocks (mockConfigPath st serviceName usecase) ≠ [] then
          (st, some .mockValidationError)
        else
          (addServer st (newMockServer serviceName svcCfg.port mocks svcCfg), none)

inductive GlobalReloadError where
  | loadGlobalError
  | globalValidationError
deriving DecidableEq, Repr

def reloadServices (env : ConfigEnv) : ManagerState → List ServiceReference → ManagerState
  | st, [] => st
  | st, ref :: rest =>
    reloadServices env (reloadService env st ref.name ref.usecase).1 rest

def removeStale (desired : List String) : ManagerState → List String → ManagerState
  | st, [] => st
  | st, n :: rest =>
    removeStale desired (if desired.contains n then st else removeService st n) rest

def globalConfigPath (st : ManagerState) : String :=
  st.configRoot ++ "/config.yaml"

def reloadGlobalConfig (env : ConfigEnv) (st : ManagerState) :
    ManagerState × Option GlobalReloadError :=
  match env.globalCfg with
  | none => (st, some .loadGlobalError)
  | some cfg =>
    if validateGlobalConfig cfg (globalConfigPath st) ≠ [] then
      (st, some .globalValidationError)
    else
      let current := st.servers.map MockServer.serviceName
      let processed := cfg.services.map ServiceReference.name
      let st1 := reloadServices env st cfg.services
      (removeStale processed st1 current, none)

def serverNames (st : ManagerState) : List String :=
  st.servers.map MockServer.serviceName

def MapsInv (st : ManagerState) : Prop :=
  (serverNames st).Nodup
  ∧ (∀ s ∈ st.servers, assocLookup st.serviceMap s.serviceName = some s)
  ∧ (∀ p ∈ st.serviceMap, p.2 ∈ st.servers ∧ p.1 = p.2.serviceName)
  ∧ (st.serviceMap.map Prod.fst).Nodup

def PortsInv (st : ManagerState) : Prop :=
  (st.servers.map MockServer.port).Nodup
  ∧ (∀ s ∈ st.servers, s.port ∈ st.portMap)
  ∧ (∀ p ∈ st.portMap, ∃ s ∈ st.servers, s.port = p)
  ∧ st.portMap.Nodup

def FleetInv (st : ManagerState) : Prop :=
  MapsInv st ∧ PortsInv st

def svcLoadResult (env : ConfigEnv) (root : String) (serviceName usecase : String) :
    Option MockServer :=
  match loadServiceConfig env serviceName with
  | none => none
  | some svcCfg =>
    if validateServiceConfig svcCfg (root ++ "/" ++ serviceName ++ "/config.yaml") ≠ [] then
      none
    else
      match loadMockConfigs env serviceName usecase with
      | none => none
      | some mocks =>
        if validateMockConfigs mocks
            (root ++ "/" ++ serviceName ++ "/usecases/" ++ usecase ++ "/all.json") ≠ [] then
          none
        else
          some (newMockServer serviceName svcCfg.port mocks svcCfg)

def PortsOkSeq (env : ConfigEnv) : ManagerState → List ServiceReference → Prop
  | _, [] => True
  | st, ref :: rest =>
    (match svcLoadResult env st.configRoot ref.name ref.usecase with
     | none => True
     | some srv => ∀ s ∈ st.servers, s.serviceName ≠ srv.serviceName → s.port ≠ srv.port)
    ∧ PortsOkSeq env (reloadService env st ref.name ref.usecase).1 rest

def GlobalPortsOk (env : ConfigEnv) (st : ManagerState) : Prop :=
  match env.globalCfg with
  | none => True
  | some cfg =>
    if validateGlobalConfig cfg (globalConfigPath st) = [] then
      PortsOkSeq env st cfg.services
    else True

inductive FleetOp where
  | add (srv : MockServer)
  | reloadSvc (env : ConfigEnv) (name usecase : String)
  | reloadGlobal (env : ConfigEnv)

def applyOp (st : ManagerState) : FleetOp → ManagerState
  | .add srv => addServer st srv
  | .reloadSvc env n u => (reloadService env st n u).1
  | .reloadGlobal env => (reloadGlobalConfig env st).1

def OpPortsOk (st : ManagerState) : FleetOp → Prop
  | .add srv => ∀ s ∈ st.servers, s.serviceName ≠ srv.serviceName → s.port ≠ srv.port
  | .reloadSvc env n u =>
    match svcLoadResult env st.configRoot n u with
    | none => True
    | some srv => ∀ s ∈ st.servers, s.serviceName ≠ srv.serviceName → s.port ≠ srv.port
  | .reloadGlobal env => GlobalPortsOk env st

def applyOps : ManagerState → List FleetOp → ManagerState
  | st, [] => st
  | st, op :: rest => applyOps (applyOp st op) rest

def OpsPortsOk : ManagerState → List FleetOp → Prop
  | _, [] => True
  | st, op :: rest => OpPortsOk st op ∧ OpsPortsOk (applyOp st op) rest

/-! ## Witness-support concrete values -/

def dly0 : DelayConfig := ⟨0, 0, 0, false⟩

def mockB : MockConfig := ⟨⟨"/b", "GET", none⟩, ⟨none, 200, []⟩⟩

def srvA : MockServer := ⟨"A", 8081, [], dly0⟩

def srvBold : MockServer := ⟨"B", 8082, [], dly0⟩

def srvB3 : MockServer := ⟨"B", 8082, [mockB], dly0⟩

/-- Environment for the fleet-convergence witness: global config names only
service B on usecase u3, and B loads successfully. -/
def wEnv : ConfigEnv :=
  { globalCfg := some ⟨[⟨"B", "u3"⟩]⟩,
    serviceCfg := fun n => if n = "B" then some ⟨8082, "B", dly0⟩ else none,
    mockCfgs := fun n u => if n = "B" ∧ u = "u3" then some [mockB] else none }

/-- Manager state with A on port 8081 and B on port 8082 running. -/
def wSt0 : ManagerState :=
  ⟨"root", [srvA, srvBold], [("A", srvA), ("B", srvBold)], [8081, 8082]⟩

/-- Environment for the shared-port counterexample: the global config names
only service B, whose reload fails (no service config on disk). -/
def cexEnv : ConfigEnv :=
  { globalCfg := some ⟨[⟨"B", "u"⟩]⟩,
    serviceCfg := fun _ => none,
    mockCfgs := fun _ _ => none }

/-- Final manager state after adding services A and B on the same port and
then reloading a global config that names only B. -/
def cexFinal : ManagerState :=
  applyOps (newServerManager "root")
    [.add ⟨"A", 8080, [], dly0⟩, .add ⟨"B", 8080, [], dly0⟩, .reloadGlobal cexEnv]

/-! ## Theorems: C1 (delay calculation) -/

/-- C1 counterexample: the claim says a configuration with
`enabled = true`, `fixed = 0`, `min = 100`, `max = 100` yields exactly
100ms, but `calculateDelay` requires `max > min` strictly for the random
branch and therefore returns 0 for this configuration (for every random
draw; shown here at draw 0). -/
theorem calculateDelay_minEqMax_counterexample :
    calculateDelay (some ⟨0, 100, 100, true⟩) 0 = 0
      ∧ calculateDelay (some ⟨0, 100, 100, true⟩) 0 ≠ 100 := by
  decide

/-- C1 (amended): the computed delay is 0 when the config is nil or
disabled; `fixed` when enabled and `fixed > 0`; otherwise, when `min ≥ 0`
and `max > min` strictly, a value in `[min, max]` inclusive with every
value of that interval attainable by some random draw; otherwise 0 (in
particular `min = max` yields 0, not `min`). -/
theorem calculateDelay_cases (c : DelayConfig) (r : Nat) :
    (calculateDelay none r = 0)
    ∧ (¬ c.enabled → calculateDelay (some c) r = 0)
    ∧ (c.enabled → 0 < c.fixed → calculateDelay (some c) r = c.fixed)
    ∧ (c.enabled → c.fixed ≤ 0 → 0 ≤ c.min → c.min < c.max →
        c.min ≤ calculateDelay (some c) r ∧ calculateDelay (some c) r ≤ c.max
          ∧ ∀ v : Int, c.min ≤ v → v ≤ c.max → ∃ s : Nat, calculateDelay (some c) s = v)
    ∧ (c.enabled → c.fixed ≤ 0 → ¬(0 ≤ c.min ∧ c.min < c.max) →
        calculateDelay (some c) r = 0) := by
  refine ⟨rfl, ?_, ?_, ?_, ?_⟩
  · intro h
    simp [calculateDelay, h]
  · intro he hf
    simp only [calculateDelay]
    rw [if_neg (by simp [he]), if_pos hf]
  · intro he hf hmin hlt
    have hn : (0 : Int) < c.max - c.min + 1 := by omega
    have hunf : ∀ s : Nat, calculateDelay (some c) s = c.min + (s : Int) % (c.max - c.min + 1) := by
      intro s
      simp only [calculateDelay]
      rw [if_neg (by simp [he]), if_neg (by omega), if_pos ⟨hmin, hlt⟩]
    refine ⟨?_, ?_, ?_⟩
    · rw [hunf]
      have := Int.emod_nonneg (r : Int) (by omega : c.max - c.min + 1 ≠ 0)
      omega
    · rw [hunf]
      have := Int.emod_lt_of_pos (r : Int) hn
      omega
    · intro v hv1 hv2
      refine ⟨(v - c.min).toNat, ?_⟩
      rw [hunf]
      have hcast : ((v - c.min).toNat : Int) = v - c.min := Int.toNat_of_nonneg (by omega)
      rw [hcast, Int.emod_eq_of_lt (by omega) (by omega)]
      omega
  · intro he hf hno
    simp only [calculateDelay]
    rw [if_neg (by simp [he]), if_neg (by omega), if_neg hno]

/-- Witness for `calculateDelay_cases` at a concrete config: with
`fixed = 0`, `min = 100`, `max = 200`, enabled, the delay for draw 5 lies
in `[100, 200]`. -/
theorem calculateDelay_cases_witness :
    100 ≤ calculateDelay (some ⟨0, 100, 200, true⟩) 5
      ∧ calculateDelay (some ⟨0, 100, 200, true⟩) 5 ≤ 200 := by
  have h := (calculateDelay_cases ⟨0, 100, 200, true⟩ 5).2.2.2.1
    (by decide) (by decide) (by decide) (by decide)
  exact ⟨h.1, h.2.1⟩

/-! ## Theorems: C2 (debounce) -/

/-- C2 counterexample: two rapid events at times 0 and 1 for a fresh path
with a 500-unit window produce two callbacks — one immediately at time 0
(before any quiet window has elapsed) and one at time 501 — not exactly
one callback after the window. -/
theorem debounce_burst_counterexample :
    debounceFires 500 none [0, 1] = [0, 501]
      ∧ (debounceFires 500 none [0, 1]).length ≠ 1 := by
  decide

/-- Helper: once an event for the path is recorded, a run of events each
arriving within the window of its predecessor produces exactly one
callback, fired one window after the last event of the run. -/
theorem debounceFires_chain (d p : Nat) (ts : List Nat)
    (h : List.Chain (fun a b => a ≤ b ∧ b - a < d) p ts) :
    debounceFires d (some p) ts = if ts = [] then [] else [ts.getLastD p + d] := by
  induction ts generalizing p with
  | nil => rfl
  | cons u us ih =>
    rcases h with _ | ⟨⟨hpu, hlt⟩, hch⟩
    have hni : ¬ d ≤ u - p := by omega
    cases us with
    | nil =>
      simp only [debounceFires]
      rw [if_neg hni]
      rfl
    | cons v vs =>
      rcases hch with _ | ⟨⟨huv, hlt2⟩, hch2⟩
      have hrec := ih u (List.Chain.cons ⟨huv, hlt2⟩ hch2)
      have hnv : ¬ (u + d < v) := by omega
      rw [debounceFires]
      rw [if_neg hni]
      show (if u + d < v then [u + d] else []) ++ debounceFires d (some u) (v :: vs) = _
      rw [if_neg hnv, hrec]
      rw [if_neg (List.cons_ne_nil v vs), if_neg (List.cons_ne_nil u (v :: vs))]
      simp only [List.nil_append, List.getLastD_cons]

/-- C2 (amended): for a burst of events for a fresh path, each arriving
within the debounce window of its predecessor, the watcher fires the
first event's callback immediately (at the first event's time, before any
quiet window), and when the burst has at least two events it additionally
fires exactly one trailing callback one window after the last event — so
a burst of `N ≥ 2` rapid events yields 2 callbacks, not 1. -/
theorem debounceFires_burst (d t : Nat) (rest : List Nat)
    (hchain : List.Chain (fun a b => a ≤ b ∧ b - a < d) t rest) :
    debounceFires d none (t :: rest) =
      t :: (if rest = [] then [] else [rest.getLastD t + d]) := by
  simp only [debounceFires]
  rw [debounceFires_chain d t rest hchain]

/-- Witness for `debounceFires_burst`: three rapid events at times 0, 1, 2
with a 500-unit window fire callbacks at times 0 and 502 only. -/
theorem debounceFires_burst_witness :
    debounceFires 500 none [0, 1, 2] = [0, 502] := by
  have h := debounceFires_burst 500 0 [1, 2]
    (List.Chain.cons (by omega) (List.Chain.cons (by omega) List.Chain.nil))
  simpa using h

/-! ## Theorems: C9 (config-file classification) -/

/-- C9 counterexample: the claim classifies exactly the paths
`<service>/usecases/<usecase>/*.json` (four components) as mock-set and
everything deeper as unknown, but the code accepts any depth of at least
four components: a five-component path is classified `"mock"`. -/
theorem classifyParts_depth_counterexample :
    classifyParts ["svc", "usecases", "uc", "sub", "m.json"] = ("svc", "mock")
      ∧ ["svc", "usecases", "uc", "sub", "m.json"].length ≠ 4
      ∧ ("svc", "mock").2 ≠ "unknown" := by
  decide

/-- C9 (amended): classification of the path split into components
yields: `global` exactly for `config.yaml` or `config.yml` at the root;
`service` with the service id exactly for `<service>/config.{yaml,yml}`;
`mock` with the service id exactly for paths of **at least** four
components whose second component is `usecases` and whose last component
ends in `.json`; and `unknown` otherwise. -/
theorem classifyParts_eq_classifySpec (parts : List String) :
    classifyParts parts = classifySpec parts := by
  match parts with
  | [] => rfl
  | [p] =>
    simp only [classifyParts, classifySpec, List.length_cons, List.length_nil]
    split_ifs with h1 h2 h3 <;> simp_all
  | [s, p] =>
    simp only [classifyParts, classifySpec]
    split_ifs with h1 h2 h3 h4 h5 <;> simp_all
  | s :: p :: q :: rest =>
    have hlast : (s :: p :: q :: rest).getLastD "" = rest.getLastD q := by
      rw [List.getLastD_cons, List.getLastD_cons, List.getLastD_cons]
    cases rest with
    | nil =>
      simp [classifyParts, classifySpec]
    | cons r rest2 =>
      have hlen4 : (s :: p :: q :: r :: rest2).length ≥ 4 := by simp
      have hlast2 : (s :: p :: q :: r :: rest2).getLastD "" = (r :: rest2).getLastD q :=
        hlast
      simp only [classifyParts, classifySpec]
      rw [if_neg (by simp), if_pos (by simp), if_neg (by simp)]
      rw [hlast2]
      by_cases hp : p = "usecases"
      · by_cases hend : strEndsWith ((r :: rest2).getLastD q) ".json" = true
        · rw [if_pos ⟨hlen4, hp, hend⟩, if_pos ⟨hp, List.cons_ne_nil r rest2, hend⟩]
          rfl
        · rw [if_neg (fun hc => hend hc.2.2), if_neg (fun hc => hend hc.2.2)]
          rfl
      · rw [if_neg (fun hc => hp hc.2.1), if_neg (fun hc => hp hc.1)]
        rfl

/-! ## Theorems: C10 (service-change usecase resolution) -/

/-- C10: for every non-deleted change event of type `service`, the change
handler dispatches a reload of that service with the hardcoded placeholder
usecase `"default"`; `getServiceUsecase` ignores both the config root and
the service id (so no global config is consulted). -/
theorem handleConfigChange_service_placeholder (root : String) (e : ConfigChangeEvent)
    (hdel : e.isDeleted = false) (hty : e.configType = "service") :
    handleConfigChange root e = .reloadServiceAction e.serviceId "default"
      ∧ ∀ r s : String, getServiceUsecase r s = "default" := by
  refine ⟨?_, fun r s => rfl⟩
  unfold handleConfigChange
  rw [if_neg (by simp [hdel]), if_neg (by rw [hty]; decide), if_pos hty]
  rfl

/-- Witness for `handleConfigChange_service_placeholder` at a concrete
event. -/
theorem handleConfigChange_service_placeholder_witness :
    handleConfigChange "" ⟨"p", false, "svc", "service"⟩
      = .reloadServiceAction "svc" "default" :=
  (handleConfigChange_service_placeholder "" ⟨"p", false, "svc", "service"⟩ rfl rfl).1

theorem strictSorted_chain' (l : List String) :
    strictSorted l = true ↔ l.Chain' (· < ·) := by
  match l with
  | [] => simp [strictSorted]
  | [a] => simp [strictSorted]
  | a :: b :: rest =>
    rw [List.chain'_cons]
    have := strictSorted_chain' (b :: rest)
    simp [strictSorted, this]

theorem sortedKeys_pairwise (f : List (String × JsonValue)) (h : sortedKeys f = true) :
    (keys f).Pairwise (· < ·) :=
  List.chain'_iff_pairwise.mp ((strictSorted_chain' (keys f)).mp h)

theorem sortedKeys_nodup (f : List (String × JsonValue)) (h : sortedKeys f = true) :
    (keys f).Nodup :=
  (sortedKeys_pairwise f h).imp ne_of_lt

theorem lookupKey_mem {f : List (String × JsonValue)} {k : String} {w : JsonValue}
    (h : lookupKey f k = some w) : (k, w) ∈ f := by
  induction f with
  | nil => simp [lookupKey] at h
  | cons p rest ih =>
    obtain ⟨k0, v0⟩ := p
    by_cases hk : k0 = k
    · subst hk
      simp [lookupKey] at h
      simp [h]
    · simp [lookupKey, hk] at h
      exact List.mem_cons_of_mem _ (ih h)

theorem mem_lookupKey {f : List (String × JsonValue)} {k : String} {v : JsonValue}
    (hnd : (keys f).Nodup) (h : (k, v) ∈ f) : lookupKey f k = some v := by
  induction f with
  | nil => simp at h
  | cons p rest ih =>
    obtain ⟨k0, v0⟩ := p
    rcases List.mem_cons.mp h with heq | hmem
    · obtain ⟨rfl, rfl⟩ := Prod.mk.injEq .. ▸ heq
      simp_all [lookupKey]
    · have hk : k0 ≠ k := by
        rintro rfl
        have : k0 ∈ keys rest := List.mem_map_of_mem Prod.fst hmem
        simp [keys] at hnd
        exact absurd this (by simpa [keys] using hnd.1)
      have hnd' : (keys rest).Nodup := by
        simp [keys] at hnd ⊢
        exact hnd.2
      simp [lookupKey, hk]
      exact ih hnd' hmem

theorem deepEqualObj_forall (l g : List (String × JsonValue)) :
    deepEqualObj l g = true ↔
      ∀ p ∈ l, ∃ w, lookupKey g p.1 = some w ∧ deepEqual p.2 w = true := by
  induction l with
  | nil => simp [deepEqualObj]
  | cons p rest ih =>
    obtain ⟨k, v⟩ := p
    rw [deepEqualObj]
    cases hlk : lookupKey g k with
    | none =>
      simp only [Bool.false_and, hlk]
      constructor
      · intro h; cases h
      · intro h
        obtain ⟨w, hw, -⟩ := h (k, v) (List.mem_cons_self _ _)
        simp [hlk] at hw
    | some w =>
      simp only [hlk, Bool.and_eq_true, ih]
      constructor
      · rintro ⟨h1, h2⟩ q hq
        rcases List.mem_cons.mp hq with rfl | hmem
        · exact ⟨w, hlk, h1⟩
        · exact h2 q hmem
      · intro h
        refine ⟨?_, fun q hq => h q (List.mem_cons_of_mem _ hq)⟩
        obtain ⟨w2, hw2, hde⟩ := h (k, v) (List.mem_cons_self _ _)
        rw [hlk] at hw2
        cases hw2
        exact hde

theorem eq_of_keys_eq_of_lookup (f : List (String × JsonValue)) :
    ∀ (g : List (String × JsonValue)), keys f = keys g → (keys f).Nodup →
      (∀ p ∈ f, lookupKey g p.1 = some p.2) → f = g := by
  induction f with
  | nil =>
    intro g hk _ _
    have : g.map Prod.fst = [] := hk.symm
    simpa using (List.map_eq_nil.mp this).symm
  | cons p rest ih =>
    intro g hk hnd hsub
    obtain ⟨k, v⟩ := p
    cases g with
    | nil => simp [keys] at hk
    | cons q g' =>
      obtain ⟨k', w⟩ := q
      have hkk : k = k' ∧ keys rest = keys g' := by
        simpa [keys] using hk
      obtain ⟨rfl, htk⟩ := hkk
      have hv : v = w := by
        have := hsub (k, v) (List.mem_cons_self _ _)
        simpa [lookupKey] using this.symm
      subst hv
      have hknotin : k ∉ keys rest := by
        simp [keys] at hnd
        simpa [keys] using hnd.1
      have hnd' : (keys rest).Nodup := by
        simp [keys] at hnd ⊢
        exact hnd.2
      have hsub' : ∀ p ∈ rest, lookupKey g' p.1 = some p.2 := by
        intro p hp
        have hne : k ≠ p.1 := by
          rintro rfl
          exact hknotin (List.mem_map_of_mem Prod.fst hp)
        have := hsub p (List.mem_cons_of_mem _ hp)
        simpa [lookupKey, hne] using this
      rw [ih g' htk hnd' hsub']

theorem eq_of_sorted_of_lookup (f g : List (String × JsonValue))
    (hf : sortedKeys f = true) (hg : sortedKeys g = true)
    (hlen : f.length = g.length)
    (hsub : ∀ p ∈ f, lookupKey g p.1 = some p.2) : f = g := by
  have hndf := sortedKeys_nodup f hf
  have hndg := sortedKeys_nodup g hg
  have hss : keys f ⊆ keys g := by
    intro k hk
    obtain ⟨p, hp, rfl⟩ := List.mem_map.mp hk
    exact List.mem_map_of_mem Prod.fst (lookupKey_mem (hsub p hp))
  have hfin : (keys f).toFinset = (keys g).toFinset := by
    refine Finset.eq_of_subset_of_card_le ?_ ?_
    · intro k hk
      simp only [List.mem_toFinset] at hk ⊢
      exact hss hk
    · rw [List.toFinset_card_of_nodup hndf, List.toFinset_card_of_nodup hndg]
      simp [keys, hlen]
  have hperm := List.perm_of_nodup_nodup_toFinset_eq hndf hndg hfin
  have hkeq : keys f = keys g :=
    List.eq_of_perm_of_sorted hperm
      ((sortedKeys_pairwise f hf).imp le_of_lt)
      ((sortedKeys_pairwise g hg).imp le_of_lt)
  exact eq_of_keys_eq_of_lookup f g hkeq hndf hsub

theorem canonicalList_mem {l : List JsonValue} (h : canonicalList l = true) :
    ∀ e ∈ l, canonical e = true := by
  induction l with
  | nil => simp
  | cons x xs ih =>
    rw [canonicalList] at h
    intro e he
    rcases List.mem_cons.mp he with rfl | hm
    · exact (Bool.and_eq_true ..  ▸ h).1
    · exact ih (Bool.and_eq_true .. ▸ h).2 e hm

theorem canonicalObj_mem {f : List (String × JsonValue)} (h : canonicalObj f = true) :
    ∀ p ∈ f, canonical p.2 = true := by
  induction f with
  | nil => simp
  | cons q rest ih =>
    obtain ⟨k, v⟩ := q
    rw [canonicalObj] at h
    intro p hp
    rcases List.mem_cons.mp hp with rfl | hm
    · exact (Bool.and_eq_true ..  ▸ h).1
    · exact ih (Bool.and_eq_true .. ▸ h).2 p hm

theorem deepEqualList_of_forall (l : List JsonValue) :
    ∀ m : List JsonValue, l.length = m.length →
      (∀ i x y, l.get? i = some x → m.get? i = some y → deepEqual x y = true) →
      deepEqualList l m = true := by
  induction l with
  | nil => intro m hm _; cases m <;> simp_all [deepEqualList]
  | cons x xs ih =>
    intro m hm hall
    cases m with
    | nil => simp at hm
    | cons y ys =>
      rw [deepEqualList, Bool.and_eq_true]
      refine ⟨hall 0 x y rfl rfl, ih ys (by simpa using hm) ?_⟩
      intro i a b ha hb
      exact hall (i + 1) a b (by simpa using ha) (by simpa using hb)

theorem deepEqual_refl : ∀ (a : JsonValue), canonical a = true → deepEqual a a = true := by
  have H : ∀ (n : Nat) (a : JsonValue), sizeOf a ≤ n → canonical a = true →
      deepEqual a a = true := by
    intro n
    induction n with
    | zero =>
      intro a hsz
      cases a <;> simp at hsz
    | succ n ih =>
      intro a hsz hc
      match a with
      | .null => rfl
      | .bool b => simp [deepEqual]
      | .num x => simp [deepEqual]
      | .str s => simp [deepEqual]
      | .arr l =>
        rw [deepEqual]
        apply deepEqualList_of_forall l l rfl
        intro i x y hx hy
        rw [hx] at hy
        cases hy
        have hmem : x ∈ l := List.get?_mem hx
        have hlt : sizeOf x < sizeOf (JsonValue.arr l) := by
          have := List.sizeOf_lt_of_mem hmem
          simp only [JsonValue.arr.sizeOf_spec]
          omega
        exact ih x (by omega) (canonicalList_mem (by rwa [canonical] at hc) x hmem)
      | .obj f =>
        rw [canonical, Bool.and_eq_true] at hc
        rw [deepEqual, Bool.and_eq_true]
        refine ⟨by simp, ?_⟩
        rw [deepEqualObj_forall]
        intro p hp
        refine ⟨p.2, mem_lookupKey (sortedKeys_nodup f hc.1) (by simpa using hp), ?_⟩
        have hlt : sizeOf p.2 < sizeOf (JsonValue.obj f) := by
          have h1 := List.sizeOf_lt_of_mem hp
          have h2 : sizeOf p.2 < sizeOf p := by
            obtain ⟨k, v⟩ := p
            simp
          simp only [JsonValue.obj.sizeOf_spec]
          omega
        exact ih p.2 (by omega) (canonicalObj_mem hc.2 p hp)
  intro a
  exact H (sizeOf a) a le_rfl

theorem deepEqualList_eq_of (l : List JsonValue) :
    ∀ m : List JsonValue, deepEqualList l m = true →
      (∀ x ∈ l, ∀ y ∈ m, deepEqual x y = true → x = y) → l = m := by
  induction l with
  | nil =>
    intro m h _
    cases m with
    | nil => rfl
    | cons y ys => simp [deepEqualList] at h
  | cons x xs ih =>
    intro m h hcb
    cases m with
    | nil => simp [deepEqualList] at h
    | cons y ys =>
      rw [deepEqualList, Bool.and_eq_true] at h
      have hx : x = y := hcb x (List.mem_cons_self _ _) y (List.mem_cons_self _ _) h.1
      have hxs : xs = ys := ih ys h.2 fun a ha b hb hab =>
        hcb a (List.mem_cons_of_mem _ ha) b (List.mem_cons_of_mem _ hb) hab
      rw [hx, hxs]

theorem eq_of_deepEqual : ∀ (a b : JsonValue), canonical a = true → canonical b = true →
    deepEqual a b = true → a = b := by
  have H : ∀ (n : Nat) (a : JsonValue), sizeOf a ≤ n → ∀ (b : JsonValue),
      canonical a = true → canonical b = true → deepEqual a b = true → a = b := by
    intro n
    induction n with
    | zero =>
      intro a hsz
      cases a <;> simp at hsz
    | succ n ih =>
      intro a hsz b hca hcb hde
      match a, b with
      | .null, .null => rfl
      | .bool x, .bool y => rw [deepEqual] at hde; simp_all
      | .num x, .num y => rw [deepEqual] at hde; simp_all
      | .str x, .str y => rw [deepEqual] at hde; simp_all
      | .arr l, .arr m =>
        rw [deepEqual] at hde
        have hlm : l = m := by
          apply deepEqualList_eq_of l m hde
          intro x hx y hy hxy
          have hszx : sizeOf x < sizeOf (JsonValue.arr l) := by
            have := List.sizeOf_lt_of_mem hx
            simp only [JsonValue.arr.sizeOf_spec]
            omega
          exact ih x (by omega) y
            (canonicalList_mem (by rwa [canonical] at hca) x hx)
            (canonicalList_mem (by rwa [canonical] at hcb) y hy) hxy
        rw [hlm]
      | .obj f, .obj g =>
        rw [deepEqual, Bool.and_eq_true] at hde
        rw [canonical, Bool.and_eq_true] at hca hcb
        have hlen : f.length = g.length := by simpa using hde.1
        have hsub : ∀ p ∈ f, lookupKey g p.1 = some p.2 := by
          intro p hp
          obtain ⟨w, hw, hdw⟩ := (deepEqualObj_forall f g).mp hde.2 p hp
          have hszp : sizeOf p.2 < sizeOf (JsonValue.obj f) := by
            have h1 := List.sizeOf_lt_of_mem hp
            have h2 : sizeOf p.2 < sizeOf p := by
              obtain ⟨k, v⟩ := p
              simp
            simp only [JsonValue.obj.sizeOf_spec]
            omega
          have hpw : p.2 = w :=
            ih p.2 (by omega) w (canonicalObj_mem hca.2 p hp)
              (canonicalObj_mem hcb.2 (p.1, w) (lookupKey_mem hw)) hdw
          rwa [hpw]
        rw [eq_of_sorted_of_lookup f g hca.1 hcb.1 hlen hsub]
      | .null, .bool _ | .null, .num _ | .null, .str _ | .null, .arr _ | .null, .obj _
      | .bool _, .null | .bool _, .num _ | .bool _, .str _ | .bool _, .arr _ | .bool _, .obj _
      | .num _, .null | .num _, .bool _ | .num _, .str _ | .num _, .arr _ | .num _, .obj _
      | .str _, .null | .str _, .bool _ | .str _, .num _ | .str _, .arr _ | .str _, .obj _
      | .arr _, .null | .arr _, .bool _ | .arr _, .num _ | .arr _, .str _ | .arr _, .obj _
      | .obj _, .null | .obj _, .bool _ | .obj _, .num _ | .obj _, .str _ | .obj _, .arr _ =>
        rw [deepEqual] at hde <;> cases hde
  intro a
  exact H (sizeOf a) a le_rfl

theorem deepEqual_iff_eq (a b : JsonValue) (hca : canonical a = true)
    (hcb : canonical b = true) : deepEqual a b = true ↔ a = b :=
  ⟨eq_of_deepEqual a b hca hcb, fun h => h ▸ deepEqual_refl a hca⟩

theorem matchesValue_obj_obj (rm em : List (String × JsonValue)) :
    matchesValue (.obj rm) (.obj em) = matchesMockBody rm em := by
  simp [matchesValue]

theorem matchesValue_nonobj_obj (rv : JsonValue) (em : List (String × JsonValue))
    (h : ∀ rm, rv ≠ .obj rm) : matchesValue rv (.obj em) = false := by
  cases rv <;> first
    | exact absurd rfl (h _)
    | simp [matchesValue]

theorem matchesValue_leaf (rv ev : JsonValue) (h : ∀ em, ev ≠ .obj em) :
    matchesValue rv ev = deepEqual rv ev := by
  cases ev <;> first
    | exact absurd rfl (h _)
    | simp [matchesValue]

theorem specValueMatch_leaf_iff (rv ev : JsonValue) (h : ∀ em, ev ≠ .obj em)
    (hcr : canonical rv = true) (hce : canonical ev = true) :
    (matchesValue rv ev = true ↔ SpecValueMatch rv ev) := by
  rw [matchesValue_leaf rv ev h, deepEqual_iff_eq rv ev hcr hce]
  constructor
  · exact fun he => SpecValueMatch.leafCase rv ev h he
  · intro hs
    rcases hs with ⟨rm, em, _⟩ | ⟨_, _, _, he⟩
    · exact absurd rfl (h em)
    · exact he

theorem matchesValue_and_body_iff_spec : ∀ (n : Nat),
    (∀ rv ev, sizeOf ev ≤ n → canonical rv = true → canonical ev = true →
      (matchesValue rv ev = true ↔ SpecValueMatch rv ev))
    ∧ (∀ received expected, sizeOf expected ≤ n →
        canonicalObj received = true → canonicalObj expected = true →
        (matchesMockBody received expected = true ↔ SpecBodyMatch received expected)) := by
  intro n
  induction n with
  | zero =>
    constructor
    · intro rv ev hsz
      cases ev <;> simp at hsz
    · intro received expected hsz
      cases expected <;> simp at hsz
  | succ n ih =>
    obtain ⟨ihV, ihB⟩ := ih
    constructor
    · -- matchesValue
      intro rv ev hsz hcr hce
      match ev with
      | .obj em =>
        cases hrv : rv with
        | obj rm =>
          subst hrv
          rw [matchesValue_obj_obj]
          rw [canonical, Bool.and_eq_true] at hcr hce
          have hszem : sizeOf em ≤ n := by
            simp only [JsonValue.obj.sizeOf_spec] at hsz
            omega
          rw [ihB rm em hszem hcr.2 hce.2]
          constructor
          · exact fun h => SpecValueMatch.objCase rm em h
          · intro h
            rcases h with ⟨_, _, hb⟩ | ⟨_, _, hne, _⟩
            · exact hb
            · exact absurd rfl (hne em)
        | null | bool _ | num _ | str _ | arr _ =>
          subst hrv
          rw [matchesValue_nonobj_obj _ em (fun rm h => by cases h)]
          simp only [Bool.false_eq_true, false_iff]
          intro h
          rcases h with ⟨_, _, _⟩ | ⟨_, _, hne, _⟩
          exact absurd rfl (hne em)
      | .null =>
        exact specValueMatch_leaf_iff rv _ (fun em h => by cases h) hcr hce
      | .bool b =>
        exact specValueMatch_leaf_iff rv _ (fun em h => by cases h) hcr hce
      | .num x =>
        exact specValueMatch_leaf_iff rv _ (fun em h => by cases h) hcr hce
      | .str s =>
        exact specValueMatch_leaf_iff rv _ (fun em h => by cases h) hcr hce
      | .arr l =>
        exact specValueMatch_leaf_iff rv _ (fun em h => by cases h) hcr hce
    · -- matchesMockBody
      intro received expected hsz hr he
      cases expected with
      | nil =>
        rw [matchesMockBody]
        simp only [true_iff]
        exact SpecBodyMatch.intro received [] (by simp) (by simp)
      | cons p rest =>
        obtain ⟨k, ev⟩ := p
        have hce : canonical ev = true := canonicalObj_mem he (k, ev) (List.mem_cons_self _ _)
        have hre : canonicalObj rest = true := by
          rw [canonicalObj] at he
          exact (Bool.and_eq_true .. ▸ he).2
        have hszr : sizeOf rest ≤ n := by
          simp only [List.cons.sizeOf_spec] at hsz
          omega
        have hszev : sizeOf ev ≤ n := by
          simp only [List.cons.sizeOf_spec, Prod.mk.sizeOf_spec] at hsz
          omega
        rw [matchesMockBody, Bool.and_eq_true]
        cases hlk : lookupKey received k with
        | none =>
          simp only [Bool.false_eq_true, false_and, false_iff]
          intro h
          rcases h with ⟨_, _, hsome, _⟩
          have := hsome k ev (List.mem_cons_self _ _)
          rw [hlk] at this
          cases this
        | some rv =>
          have hcrv : canonical rv = true :=
            canonicalObj_mem hr (k, rv) (lookupKey_mem hlk)
          rw [ihV rv ev hszev hcrv hce, ihB received rest hszr hr hre]
          constructor
          · rintro ⟨hv, hb⟩
            rcases hb with ⟨_, _, hsome, hval⟩
            refine SpecBodyMatch.intro _ _ ?_ ?_
            · intro k2 ev2 hmem
              rcases List.mem_cons.mp hmem with heq | hmem2
              · cases heq
                rw [hlk]
                rfl
              · exact hsome k2 ev2 hmem2
            · intro k2 ev2 rv2 hmem hlk2
              rcases List.mem_cons.mp hmem with heq | hmem2
              · cases heq
                rw [hlk] at hlk2
                cases hlk2
                exact hv
              · exact hval k2 ev2 rv2 hmem2 hlk2
          · rintro ⟨_, _, hsome, hval⟩
            refine ⟨hval k ev rv (List.mem_cons_self _ _) hlk, ?_⟩
            refine SpecBodyMatch.intro _ _ ?_ ?_
            · exact fun k2 ev2 hmem => hsome k2 ev2 (List.mem_cons_of_mem _ hmem)
            · exact fun k2 ev2 rv2 hmem hlk2 =>
                hval k2 ev2 rv2 (List.mem_cons_of_mem _ hmem) hlk2

theorem matchesMockBody_iff_spec (received expected : List (String × JsonValue))
    (hr : canonicalObj received = true) (he : canonicalObj expected = true) :
    matchesMockBody received expected = true ↔ SpecBodyMatch received expected :=
  (matchesValue_and_body_iff_spec (sizeOf expected)).2 received expected le_rfl hr he

theorem mockMatches_no_body (r : HttpRequest) (m : MockConfig)
    (hb : m.request.body = none) :
    mockMatches r m = true ↔ r.urlPath = m.request.path ∧ r.method = m.request.method := by
  simp [mockMatches, hb]

theorem serveHTTP_spec (mocks : List MockConfig) (r : HttpRequest) :
    ((∀ m ∈ mocks, mockMatches r m = false) →
      serveHTTP mocks r = ⟨404, [], .text "No matching mock found"⟩)
    ∧ (∀ i m, mocks.get? i = some m → mockMatches r m = true →
        (∀ j m2, j < i → mocks.get? j = some m2 → mockMatches r m2 = false) →
        serveHTTP mocks r = ⟨m.response.statusCode, m.response.headers, .jsonObj m.response.body⟩) := by
  constructor
  · intro hall
    have : findMatchingMock mocks r = none := by
      rw [findMatchingMock, List.find?_eq_none]
      intro m hm
      simp [hall m hm]
    rw [serveHTTP, this]
  · intro i m hget hmatch hbefore
    have : findMatchingMock mocks r = some m := by
      rw [findMatchingMock]
      induction mocks generalizing i with
      | nil => simp at hget
      | cons x xs ih =>
        cases i with
        | zero =>
          simp at hget
          subst hget
          rw [List.find?_cons_of_pos _ hmatch]
        | succ i2 =>
          have hx : mockMatches r x = false := hbefore 0 x (Nat.succ_pos i2) rfl
          rw [List.find?_cons_of_neg _ (by simp [hx])]
          exact ih i2 (by simpa using hget) fun j m2 hj hg =>
            hbefore (j + 1) m2 (by omega) (by simpa using hg)
    rw [serveHTTP, this]

theorem assocLookup_insert_self {α : Type} (m : List (String × α)) (k : String) (v : α) :
    assocLookup (assocInsert m k v) k = some v := by
  induction m with
  | nil => simp [assocInsert, assocLookup]
  | cons p rest ih =>
    obtain ⟨k0, v0⟩ := p
    by_cases h : k0 = k
    · simp [assocInsert, assocLookup, h]
    · simp [assocInsert, assocLookup, h, ih]

theorem assocLookup_insert_ne {α : Type} (m : List (String × α)) (k k2 : String) (v : α)
    (h : k2 ≠ k) : assocLookup (assocInsert m k v) k2 = assocLookup m k2 := by
  induction m with
  | nil =>
    show assocLookup [(k, v)] k2 = none
    rw [assocLookup, if_neg (fun he : k = k2 => h he.symm)]
    rfl
  | cons p rest ih =>
    obtain ⟨k0, v0⟩ := p
    by_cases h0 : k0 = k
    · subst h0
      rw [assocInsert, if_pos rfl, assocLookup, assocLookup,
        if_neg (fun he : k0 = k2 => h he.symm), if_neg (fun he : k0 = k2 => h he.symm)]
    · rw [assocInsert, if_neg h0, assocLookup, assocLookup]
      by_cases h2 : k0 = k2
      · rw [if_pos h2, if_pos h2]
      · rw [if_neg h2, if_neg h2, ih]

theorem mem_assocInsert {α : Type} (m : List (String × α)) (k : String) (v : α)
    (hnd : (m.map Prod.fst).Nodup) :
    ∀ p ∈ assocInsert m k v, p = (k, v) ∨ (p ∈ m ∧ p.1 ≠ k) := by
  induction m with
  | nil => simp [assocInsert]
  | cons q rest ih =>
    obtain ⟨k0, v0⟩ := q
    rw [List.map_cons, List.nodup_cons] at hnd
    intro p hp
    by_cases h : k0 = k
    · subst h
      rw [assocInsert, if_pos rfl] at hp
      rcases List.mem_cons.mp hp with rfl | hm
      · exact Or.inl rfl
      · refine Or.inr ⟨List.mem_cons_of_mem _ hm, fun hk => hnd.1 ?_⟩
        rw [← hk]
        exact List.mem_map.mpr ⟨p, hm, rfl⟩
    · rw [assocInsert, if_neg h] at hp
      rcases List.mem_cons.mp hp with rfl | hm
      · exact Or.inr ⟨List.mem_cons_self _ _, h⟩
      · rcases ih hnd.2 p hm with h1 | ⟨h2, h3⟩
        · exact Or.inl h1
        · exact Or.inr ⟨List.mem_cons_of_mem _ h2, h3⟩

theorem assocLookup_mem {α : Type} {m : List (String × α)} {k : String} {v : α}
    (h : assocLookup m k = some v) : (k, v) ∈ m := by
  induction m with
  | nil => simp [assocLookup] at h
  | cons p rest ih =>
    obtain ⟨k0, v0⟩ := p
    rw [assocLookup] at h
    by_cases h0 : k0 = k
    · rw [if_pos h0] at h
      cases h
      rw [h0]
      exact List.mem_cons_self _ _
    · rw [if_neg h0] at h
      exact List.mem_cons_of_mem _ (ih h)

theorem assocLookup_eq_none {α : Type} {m : List (String × α)} {k : String} :
    assocLookup m k = none ↔ k ∉ m.map Prod.fst := by
  induction m with
  | nil => simp [assocLookup]
  | cons p rest ih =>
    obtain ⟨k0, v0⟩ := p
    rw [assocLookup]
    by_cases h0 : k0 = k
    · subst h0
      simp
    · simp only [if_neg h0, List.map_cons, List.mem_cons, ih]
      constructor
      · rintro h (rfl | hm)
        · exact h0 rfl
        · exact h hm
      · exact fun h hm => h (Or.inr hm)

theorem assocErase_sublist {α : Type} (m : List (String × α)) (k : String) :
    (assocErase m k).Sublist m := by
  induction m with
  | nil => simp [assocErase]
  | cons p rest ih =>
    obtain ⟨k0, v0⟩ := p
    rw [assocErase]
    by_cases h0 : k0 = k
    · rw [if_pos h0]
      exact List.sublist_cons_self _ _
    · rw [if_neg h0]
      exact ih.cons₂ _

theorem assocLookup_erase_self {α : Type} (m : List (String × α)) (k : String)
    (hnd : (m.map Prod.fst).Nodup) : assocLookup (assocErase m k) k = none := by
  induction m with
  | nil => simp [assocErase, assocLookup]
  | cons p rest ih =>
    obtain ⟨k0, v0⟩ := p
    rw [List.map_cons, List.nodup_cons] at hnd
    rw [assocErase]
    by_cases h0 : k0 = k
    · rw [if_pos h0]
      rw [assocLookup_eq_none]
      rw [← h0]
      exact hnd.1
    · rw [if_neg h0, assocLookup, if_neg h0]
      exact ih hnd.2

theorem assocLookup_erase_ne {α : Type} (m : List (String × α)) (k k2 : String)
    (h : k2 ≠ k) : assocLookup (assocErase m k) k2 = assocLookup m k2 := by
  induction m with
  | nil => simp [assocErase]
  | cons p rest ih =>
    obtain ⟨k0, v0⟩ := p
    rw [assocErase]
    by_cases h0 : k0 = k
    · rw [if_pos h0, assocLookup, if_neg (fun he : k0 = k2 => h (he.symm.trans h0))]
    · rw [if_neg h0, assocLookup, assocLookup]
      by_cases h2 : k0 = k2
      · rw [if_pos h2, if_pos h2]
      · rw [if_neg h2, if_neg h2, ih]

theorem removeFirstByName_sublist (l : List MockServer) (n : String) :
    (removeFirstByName l n).Sublist l := by
  induction l with
  | nil => simp [removeFirstByName]
  | cons s rest ih =>
    rw [removeFirstByName]
    by_cases h : s.serviceName = n
    · rw [if_pos h]
      exact List.sublist_cons_self _ _
    · rw [if_neg h]
      exact ih.cons₂ _

theorem mem_removeFirstByName_of_ne {l : List MockServer} {n : String} {s : MockServer}
    (hs : s ∈ l) (hne : s.serviceName ≠ n) : s ∈ removeFirstByName l n := by
  induction l with
  | nil => simp at hs
  | cons x rest ih =>
    rw [removeFirstByName]
    by_cases h : x.serviceName = n
    · rw [if_pos h]
      rcases List.mem_cons.mp hs with rfl | hm
      · exact absurd h hne
      · exact hm
    · rw [if_neg h]
      rcases List.mem_cons.mp hs with rfl | hm
      · exact List.mem_cons_self _ _
      · exact List.mem_cons_of_mem _ (ih hm)

theorem not_mem_names_removeFirstByName {l : List MockServer} {n : String}
    (hnd : (l.map MockServer.serviceName).Nodup) :
    n ∉ (removeFirstByName l n).map MockServer.serviceName := by
  induction l with
  | nil => simp [removeFirstByName]
  | cons s rest ih =>
    rw [List.map_cons, List.nodup_cons] at hnd
    rw [removeFirstByName]
    by_cases h : s.serviceName = n
    · rw [if_pos h]
      rw [← h]
      exact hnd.1
    · rw [if_neg h]
      rw [List.map_cons]
      intro hmem
      rcases List.mem_cons.mp hmem with heq | hm
      · exact h heq.symm
      · exact ih hnd.2 hm

theorem mem_portInsert {ps : List Int} {p x : Int} :
    x ∈ portInsert ps p ↔ x ∈ ps ∨ x = p := by
  rw [portInsert]
  by_cases h : ps.contains p
  · rw [if_pos h]
    constructor
    · exact Or.inl
    · rintro (hx | rfl)
      · exact hx
      · exact List.mem_of_elem_eq_true h
  · rw [if_neg h]
    simp

theorem portInsert_nodup {ps : List Int} {p : Int} (h : ps.Nodup) :
    (portInsert ps p).Nodup := by
  rw [portInsert]
  by_cases hc : ps.contains p
  · rw [if_pos hc]
    exact h
  · rw [if_neg hc]
    rw [List.contains_eq_any_beq] at hc
    have hc2 : p ∉ ps := fun hp => hc (by simp [List.any_eq_true]; exact hp)
    simpa [List.nodup_append] using ⟨h, hc2⟩

theorem keys_assocInsert_subset {α : Type} (m : List (String × α)) (k : String) (v : α) :
    ∀ x ∈ (assocInsert m k v).map Prod.fst, x ∈ m.map Prod.fst ∨ x = k := by
  induction m with
  | nil => simp [assocInsert]
  | cons p rest ih =>
    obtain ⟨k0, v0⟩ := p
    intro x hx
    by_cases h0 : k0 = k
    · rw [assocInsert, if_pos h0, List.map_cons, List.mem_cons] at hx
      rcases hx with rfl | hm
      · exact Or.inr rfl
      · exact Or.inl (by rw [List.map_cons, List.mem_cons]; exact Or.inr hm)
    · rw [assocInsert, if_neg h0, List.map_cons, List.mem_cons] at hx
      rcases hx with rfl | hm
      · exact Or.inl (by rw [List.map_cons, List.mem_cons]; exact Or.inl rfl)
      · rcases ih x hm with h1 | h2
        · exact Or.inl (by rw [List.map_cons, List.mem_cons]; exact Or.inr h1)
        · exact Or.inr h2

theorem keys_assocInsert_nodup {α : Type} (m : List (String × α)) (k : String) (v : α)
    (hnd : (m.map Prod.fst).Nodup) : ((assocInsert m k v).map Prod.fst).Nodup := by
  induction m with
  | nil => simp [assocInsert]
  | cons p rest ih =>
    obtain ⟨k0, v0⟩ := p
    rw [List.map_cons, List.nodup_cons] at hnd
    by_cases h0 : k0 = k
    · subst h0
      rw [assocInsert, if_pos rfl]
      simpa [List.nodup_cons] using hnd
    · rw [assocInsert, if_neg h0, List.map_cons, List.nodup_cons]
      refine ⟨?_, ih hnd.2⟩
      intro hmem
      rcases keys_assocInsert_subset rest k v k0 hmem with h1 | h2
      · exact hnd.1 h1
      · exact h0 h2

theorem addServer_eq_fresh (st : ManagerState) (srv : MockServer)
    (h : assocLookup st.serviceMap srv.serviceName = none) :
    addServer st srv =
      { st with
        servers := st.servers ++ [srv],
        serviceMap := assocInsert st.serviceMap srv.serviceName srv,
        portMap := portInsert st.portMap srv.port } := by
  rw [addServer, h]

theorem addServer_eq_replace (st : ManagerState) (srv existing : MockServer)
    (h : assocLookup st.serviceMap srv.serviceName = some existing) :
    addServer st srv =
      { st with
        servers := removeFirstByName st.servers srv.serviceName ++ [srv],
        serviceMap := assocInsert st.serviceMap srv.serviceName srv,
        portMap := portInsert (st.portMap.erase existing.port) srv.port } := by
  rw [addServer, h]

theorem addServer_mapsInv (st : ManagerState) (srv : MockServer) (hm : MapsInv st) :
    MapsInv (addServer st srv) := by
  obtain ⟨m1, m2, m3, m4⟩ := hm
  cases hlk : assocLookup st.serviceMap srv.serviceName with
  | none =>
    rw [addServer_eq_fresh st srv hlk]
    have hfresh : ∀ s ∈ st.servers, s.serviceName ≠ srv.serviceName := by
      intro s hs heq
      rw [← heq] at hlk
      rw [m2 s hs] at hlk
      cases hlk
    refine ⟨?_, ?_, ?_, ?_⟩
    · simp only [serverNames, List.map_append, List.map_cons, List.map_nil]
      rw [List.nodup_append]
      refine ⟨m1, List.nodup_singleton _, ?_⟩
      intro x hx
      obtain ⟨s, hs, rfl⟩ := List.mem_map.mp hx
      simpa using fun heq => hfresh s hs heq
    · intro s hs
      rcases List.mem_append.mp hs with hs1 | hs2
      · rw [assocLookup_insert_ne _ _ _ _ (hfresh s hs1)]
        exact m2 s hs1
      · simp only [List.mem_singleton] at hs2
        subst hs2
        exact assocLookup_insert_self _ _ _
    · intro p hp
      rcases mem_assocInsert _ _ _ m4 p hp with rfl | ⟨hpm, _⟩
      · exact ⟨List.mem_append_right _ (List.mem_singleton_self _), rfl⟩
      · obtain ⟨hin, hk⟩ := m3 p hpm
        exact ⟨List.mem_append_left _ hin, hk⟩
    · exact keys_assocInsert_nodup _ _ _ m4
  | some existing =>
    rw [addServer_eq_replace st srv existing hlk]
    have hex := m3 _ (assocLookup_mem hlk)
    have hexmem : existing ∈ st.servers := hex.1
    have hexname : srv.serviceName = existing.serviceName := hex.2
    have hnodup1 : ((removeFirstByName st.servers srv.serviceName).map
        MockServer.serviceName).Nodup :=
      ((removeFirstByName_sublist st.servers srv.serviceName).map _).nodup m1
    have hnotin := not_mem_names_removeFirstByName (l := st.servers)
      (n := srv.serviceName) m1
    refine ⟨?_, ?_, ?_, ?_⟩
    · simp only [serverNames, List.map_append, List.map_cons, List.map_nil]
      rw [List.nodup_append]
      refine ⟨hnodup1, List.nodup_singleton _, ?_⟩
      intro x hx
      simp only [List.mem_singleton]
      intro heq
      subst heq
      exact hnotin hx
    · intro s hs
      rcases List.mem_append.mp hs with hs1 | hs2
      · have hne : s.serviceName ≠ srv.serviceName := by
          exact fun heq => hnotin (List.mem_map.mpr ⟨s, hs1, heq⟩)
        rw [assocLookup_insert_ne _ _ _ _ hne]
        exact m2 s ((removeFirstByName_sublist _ _).mem hs1)
      · simp only [List.mem_singleton] at hs2
        subst hs2
        exact assocLookup_insert_self _ _ _
    · intro p hp
      rcases mem_assocInsert _ _ _ m4 p hp with rfl | ⟨hpm, hk⟩
      · exact ⟨List.mem_append_right _ (List.mem_singleton_self _), rfl⟩
      · obtain ⟨hin, hkey⟩ := m3 p hpm
        refine ⟨List.mem_append_left _ ?_, hkey⟩
        exact mem_removeFirstByName_of_ne hin (by rw [← hkey]; exact hk)
    · exact keys_assocInsert_nodup _ _ _ m4

theorem addServer_portsInv (st : ManagerState) (srv : MockServer)
    (hm : MapsInv st) (hp : PortsInv st)
    (hcol : ∀ s ∈ st.servers, s.serviceName ≠ srv.serviceName → s.port ≠ srv.port) :
    PortsInv (addServer st srv) := by
  obtain ⟨m1, m2, m3, m4⟩ := hm
  obtain ⟨p1, p2, p3, p4⟩ := hp
  cases hlk : assocLookup st.serviceMap srv.serviceName with
  | none =>
    rw [addServer_eq_fresh st srv hlk]
    have hfresh : ∀ s ∈ st.servers, s.serviceName ≠ srv.serviceName := by
      intro s hs heq
      rw [← heq] at hlk
      rw [m2 s hs] at hlk
      cases hlk
    have hpfresh : ∀ s ∈ st.servers, s.port ≠ srv.port :=
      fun s hs => hcol s hs (hfresh s hs)
    refine ⟨?_, ?_, ?_, ?_⟩
    · simp only [List.map_append, List.map_cons, List.map_nil]
      rw [List.nodup_append]
      refine ⟨p1, List.nodup_singleton _, ?_⟩
      intro x hx
      obtain ⟨s, hs, rfl⟩ := List.mem_map.mp hx
      simpa using hpfresh s hs
    · intro s hs
      rcases List.mem_append.mp hs with hs1 | hs2
      · exact mem_portInsert.mpr (Or.inl (p2 s hs1))
      · simp only [List.mem_singleton] at hs2
        subst hs2
        exact mem_portInsert.mpr (Or.inr rfl)
    · intro p hpp
      rcases mem_portInsert.mp hpp with hp1 | rfl
      · obtain ⟨s, hs, rfl⟩ := p3 p hp1
        exact ⟨s, List.mem_append_left _ hs, rfl⟩
      · exact ⟨srv, List.mem_append_right _ (List.mem_singleton_self _), rfl⟩
    · exact portInsert_nodup p4
  | some existing =>
    rw [addServer_eq_replace st srv existing hlk]
    have hex := m3 _ (assocLookup_mem hlk)
    have hexmem : existing ∈ st.servers := hex.1
    have hexname : srv.serviceName = existing.serviceName := hex.2
    have hnotin := not_mem_names_removeFirstByName (l := st.servers)
      (n := srv.serviceName) m1
    have hmem1 : ∀ s ∈ removeFirstByName st.servers srv.serviceName, s ∈ st.servers :=
      fun s hs => (removeFirstByName_sublist _ _).mem hs
    have hname1 : ∀ s ∈ removeFirstByName st.servers srv.serviceName,
        s.serviceName ≠ srv.serviceName :=
      fun s hs heq => hnotin (List.mem_map.mpr ⟨s, hs, heq⟩)
    have hne_ex : ∀ s ∈ removeFirstByName st.servers srv.serviceName, s ≠ existing := by
      intro s hs heq
      exact hname1 s hs (by rw [heq, hexname])
    have hportne_srv : ∀ s ∈ removeFirstByName st.servers srv.serviceName,
        s.port ≠ srv.port :=
      fun s hs => hcol s (hmem1 s hs) (hname1 s hs)
    have hportne_ex : ∀ s ∈ removeFirstByName st.servers srv.serviceName,
        s.port ≠ existing.port := by
      intro s hs heq
      exact hne_ex s hs (List.inj_on_of_nodup_map p1 (hmem1 s hs) hexmem heq)
    refine ⟨?_, ?_, ?_, ?_⟩
    · simp only [List.map_append, List.map_cons, List.map_nil]
      rw [List.nodup_append]
      refine ⟨((removeFirstByName_sublist _ _).map _).nodup p1, List.nodup_singleton _, ?_⟩
      intro x hx
      obtain ⟨s, hs, rfl⟩ := List.mem_map.mp hx
      simpa using hportne_srv s hs
    · intro s hs
      rcases List.mem_append.mp hs with hs1 | hs2
      · refine mem_portInsert.mpr (Or.inl ?_)
        exact (List.mem_erase_of_ne (hportne_ex s hs1)).mpr (p2 s (hmem1 s hs1))
      · simp only [List.mem_singleton] at hs2
        subst hs2
        exact mem_portInsert.mpr (Or.inr rfl)
    · intro p hpp
      rcases mem_portInsert.mp hpp with hp1 | rfl
      · have hpm : p ∈ st.portMap := (List.erase_sublist _ _).subset hp1
        obtain ⟨s, hs, rfl⟩ := p3 p hpm
        have hsne : s ≠ existing := by
          intro heq
          subst heq
          exact (p4.not_mem_erase) hp1
        have hsname : s.serviceName ≠ srv.serviceName := by
          intro heq
          exact hsne (List.inj_on_of_nodup_map (by simpa [serverNames] using m1) hs hexmem
            (heq.trans hexname))
        exact ⟨s, List.mem_append_left _ (mem_removeFirstByName_of_ne hs hsname), rfl⟩
      · exact ⟨srv, List.mem_append_right _ (List.mem_singleton_self _), rfl⟩
    · exact portInsert_nodup (p4.erase _)

theorem not_mem_keys_assocErase {α : Type} {m : List (String × α)} {n : String}
    (hnd : (m.map Prod.fst).Nodup) : n ∉ (assocErase m n).map Prod.fst := by
  induction m with
  | nil => simp [assocErase]
  | cons p rest ih =>
    obtain ⟨k0, v0⟩ := p
    rw [List.map_cons, List.nodup_cons] at hnd
    rw [assocErase]
    by_cases h0 : k0 = n
    · rw [if_pos h0]
      rw [← h0]
      exact hnd.1
    · rw [if_neg h0, List.map_cons]
      intro hmem
      rcases List.mem_cons.mp hmem with heq | hm
      · exact h0 heq.symm
      · exact ih hnd.2 hm

theorem removeService_mapsInv (st : ManagerState) (n : String) (hm : MapsInv st) :
    MapsInv (removeService st n) := by
  obtain ⟨m1, m2, m3, m4⟩ := hm
  cases hlk : assocLookup st.serviceMap n with
  | none =>
    rw [removeService, hlk]
    exact ⟨m1, m2, m3, m4⟩
  | some server =>
    rw [removeService, hlk]
    have hnotin := not_mem_names_removeFirstByName (l := st.servers) (n := n) m1
    refine ⟨?_, ?_, ?_, ?_⟩
    · exact ((removeFirstByName_sublist _ _).map _).nodup m1
    · intro s hs
      have hne : s.serviceName ≠ n := fun heq => hnotin (List.mem_map.mpr ⟨s, hs, heq⟩)
      rw [assocLookup_erase_ne _ _ _ hne]
      exact m2 s ((removeFirstByName_sublist _ _).mem hs)
    · intro p hp
      have hpm : p ∈ st.serviceMap := (assocErase_sublist _ _).mem hp
      obtain ⟨hin, hkey⟩ := m3 p hpm
      have hkne : p.1 ≠ n := by
        intro heq
        exact not_mem_keys_assocErase m4 (heq ▸ List.mem_map.mpr ⟨p, hp, rfl⟩)
      exact ⟨mem_removeFirstByName_of_ne hin (by rw [← hkey]; exact hkne), hkey⟩
    · exact ((assocErase_sublist _ _).map _).nodup m4

theorem removeService_portsInv (st : ManagerState) (n : String)
    (hm : MapsInv st) (hp : PortsInv st) : PortsInv (removeService st n) := by
  obtain ⟨m1, m2, m3, m4⟩ := hm
  obtain ⟨p1, p2, p3, p4⟩ := hp
  cases hlk : assocLookup st.serviceMap n with
  | none =>
    rw [removeService, hlk]
    exact ⟨p1, p2, p3, p4⟩
  | some server =>
    rw [removeService, hlk]
    have hsrv := m3 _ (assocLookup_mem hlk)
    have hsrvmem : server ∈ st.servers := hsrv.1
    have hsrvname : n = server.serviceName := hsrv.2
    have hnotin := not_mem_names_removeFirstByName (l := st.servers) (n := n) m1
    have hmem1 : ∀ s ∈ removeFirstByName st.servers n, s ∈ st.servers :=
      fun s hs => (removeFirstByName_sublist _ _).mem hs
    have hne_srv : ∀ s ∈ removeFirstByName st.servers n, s ≠ server := by
      intro s hs heq
      exact hnotin (List.mem_map.mpr ⟨s, hs, by rw [heq, ← hsrvname]⟩)
    have hportne : ∀ s ∈ removeFirstByName st.servers n, s.port ≠ server.port := by
      intro s hs heq
      exact hne_srv s hs (List.inj_on_of_nodup_map p1 (hmem1 s hs) hsrvmem heq)
    refine ⟨?_, ?_, ?_, ?_⟩
    · exact ((removeFirstByName_sublist _ _).map _).nodup p1
    · intro s hs
      exact (List.mem_erase_of_ne (hportne s hs)).mpr (p2 s (hmem1 s hs))
    · intro p hpp
      have hpm : p ∈ st.portMap := (List.erase_sublist _ _).subset hpp
      obtain ⟨s, hs, rfl⟩ := p3 p hpm
      have hsne : s ≠ server := by
        intro heq
        subst heq
        exact p4.not_mem_erase hpp
      have hsname : s.serviceName ≠ n := by
        intro heq
        exact hsne (List.inj_on_of_nodup_map (by simpa [serverNames] using m1) hs hsrvmem
          (heq.trans hsrvname))
      exact ⟨s, mem_removeFirstByName_of_ne hs hsname, rfl⟩
    · exact p4.erase _

theorem reloadService_fst (env : ConfigEnv) (st : ManagerState) (n u : String) :
    (reloadService env st n u).1 =
      match svcLoadResult env st.configRoot n u with
      | none => st
      | some srv => addServer st srv := by
  cases hl : loadServiceConfig env n with
  | none => simp [reloadService, svcLoadResult, hl]
  | some cfg =>
    by_cases h1 : validateServiceConfig cfg (st.configRoot ++ "/" ++ n ++ "/config.yaml") = []
    · cases hm : loadMockConfigs env n u with
      | none => simp [reloadService, svcLoadResult, hl, svcConfigPath, h1, hm]
      | some mocks =>
        by_cases h2 : validateMockConfigs mocks
            (st.configRoot ++ "/" ++ n ++ "/usecases/" ++ u ++ "/all.json") = []
        · simp [reloadService, svcLoadResult, hl, svcConfigPath, mockConfigPath, h1, h2, hm]
        · simp [reloadService, svcLoadResult, hl, svcConfigPath, mockConfigPath, h1, h2, hm]
    · simp [reloadService, svcLoadResult, hl, svcConfigPath, h1]

theorem reloadService_fleetInv (env : ConfigEnv) (st : ManagerState) (n u : String)
    (hinv : FleetInv st)
    (hok : match svcLoadResult env st.configRoot n u with
      | none => True
      | some srv => ∀ s ∈ st.servers, s.serviceName ≠ srv.serviceName → s.port ≠ srv.port) :
    FleetInv (reloadService env st n u).1 := by
  rw [reloadService_fst]
  cases h : svcLoadResult env st.configRoot n u with
  | none => exact hinv
  | some srv =>
    rw [h] at hok
    exact ⟨addServer_mapsInv st srv hinv.1, addServer_portsInv st srv hinv.1 hinv.2 hok⟩

theorem reloadServices_fleetInv (env : ConfigEnv) (refs : List ServiceReference) :
    ∀ st : ManagerState, FleetInv st → PortsOkSeq env st refs →
      FleetInv (reloadServices env st refs) := by
  induction refs with
  | nil =>
    intro st hinv _
    exact hinv
  | cons ref rest ih =>
    intro st hinv hok
    rw [PortsOkSeq] at hok
    rw [reloadServices]
    exact ih _ (reloadService_fleetInv env st ref.name ref.usecase hinv hok.1) hok.2

theorem removeService_fleetInv (st : ManagerState) (n : String) (hinv : FleetInv st) :
    FleetInv (removeService st n) :=
  ⟨removeService_mapsInv st n hinv.1, removeService_portsInv st n hinv.1 hinv.2⟩

theorem removeStale_fleetInv (desired : List String) (current : List String) :
    ∀ st : ManagerState, FleetInv st → FleetInv (removeStale desired st current) := by
  induction current with
  | nil =>
    intro st hinv
    exact hinv
  | cons n rest ih =>
    intro st hinv
    rw [removeStale]
    by_cases h : desired.contains n
    · rw [if_pos h]
      exact ih st hinv
    · rw [if_neg h]
      exact ih _ (removeService_fleetInv st n hinv)

theorem reloadGlobalConfig_fleetInv (env : ConfigEnv) (st : ManagerState)
    (hinv : FleetInv st) (hok : GlobalPortsOk env st) :
    FleetInv (reloadGlobalConfig env st).1 := by
  cases hg : env.globalCfg with
  | none => simpa [reloadGlobalConfig, hg] using hinv
  | some cfg =>
    simp only [GlobalPortsOk, hg] at hok
    by_cases hv : validateGlobalConfig cfg (globalConfigPath st) = []
    · rw [if_pos hv] at hok
      have heq : (reloadGlobalConfig env st).1 =
          removeStale (cfg.services.map ServiceReference.name)
            (reloadServices env st cfg.services)
            (st.servers.map MockServer.serviceName) := by
        simp [reloadGlobalConfig, hg, hv]
      rw [heq]
      exact removeStale_fleetInv _ _ _ (reloadServices_fleetInv env cfg.services st hinv hok)
    · have heq : (reloadGlobalConfig env st).1 = st := by
        simp [reloadGlobalConfig, hg, hv]
      rw [heq]
      exact hinv

theorem applyOp_fleetInv (st : ManagerState) (op : FleetOp)
    (hinv : FleetInv st) (hok : OpPortsOk st op) : FleetInv (applyOp st op) := by
  cases op with
  | add srv =>
    exact ⟨addServer_mapsInv st srv hinv.1, addServer_portsInv st srv hinv.1 hinv.2 hok⟩
  | reloadSvc env n u =>
    exact reloadService_fleetInv env st n u hinv hok
  | reloadGlobal env =>
    exact reloadGlobalConfig_fleetInv env st hinv hok

theorem newServerManager_fleetInv (root : String) : FleetInv (newServerManager root) := by
  refine ⟨⟨?_, ?_, ?_, ?_⟩, ?_, ?_, ?_, ?_⟩ <;> simp [newServerManager, serverNames]

theorem applyOps_fleetInv (ops : List FleetOp) :
    ∀ st : ManagerState, FleetInv st → OpsPortsOk st ops → FleetInv (applyOps st ops) := by
  induction ops with
  | nil =>
    intro st hinv _
    exact hinv
  | cons op rest ih =>
    intro st hinv hok
    rw [OpsPortsOk] at hok
    rw [applyOps]
    exact ih _ (applyOp_fleetInv st op hinv hok.1) hok.2

theorem reloadService_error_state (env : ConfigEnv) (st : ManagerState) (n u : String)
    (e : ReloadError) (h : (reloadService env st n u).2 = some e) :
    (reloadService env st n u).1 = st := by
  rw [reloadService_fst]
  cases hl : svcLoadResult env st.configRoot n u with
  | none => rfl
  | some srv =>
    exfalso
    cases hl2 : loadServiceConfig env n with
    | none => rw [svcLoadResult, hl2] at hl; cases hl
    | some cfg =>
      by_cases h1 : validateServiceConfig cfg (st.configRoot ++ "/" ++ n ++ "/config.yaml") = []
      · cases hm : loadMockConfigs env n u with
        | none => simp [svcLoadResult, hl2, svcConfigPath, h1, hm] at hl
        | some mocks =>
          by_cases h2 : validateMockConfigs mocks
              (st.configRoot ++ "/" ++ n ++ "/usecases/" ++ u ++ "/all.json") = []
          · simp [reloadService, hl2, svcConfigPath, mockConfigPath, h1, h2, hm] at h
          · simp [svcLoadResult, hl2, svcConfigPath, mockConfigPath, h1, h2, hm] at hl
      · rw [svcLoadResult, hl2] at hl
        simp only [svcConfigPath] at hl
        rw [if_pos (by simpa using h1)] at hl
        cases hl

theorem addServer_configRoot (st : ManagerState) (srv : MockServer) :
    (addServer st srv).configRoot = st.configRoot := by
  cases hlk : assocLookup st.serviceMap srv.serviceName with
  | none => rw [addServer_eq_fresh st srv hlk]
  | some existing => rw [addServer_eq_replace st srv existing hlk]

theorem removeService_configRoot (st : ManagerState) (n : String) :
    (removeService st n).configRoot = st.configRoot := by
  cases hlk : assocLookup st.serviceMap n with
  | none => rw [removeService, hlk]
  | some server => rw [removeService, hlk]

theorem reloadService_configRoot (env : ConfigEnv) (st : ManagerState) (n u : String) :
    (reloadService env st n u).1.configRoot = st.configRoot := by
  rw [reloadService_fst]
  cases svcLoadResult env st.configRoot n u with
  | none => rfl
  | some srv => exact addServer_configRoot st srv

theorem reloadServices_configRoot (env : ConfigEnv) (refs : List ServiceReference) :
    ∀ st : ManagerState, (reloadServices env st refs).configRoot = st.configRoot := by
  induction refs with
  | nil => intro st; rfl
  | cons ref rest ih =>
    intro st
    rw [reloadServices, ih, reloadService_configRoot]

theorem svcLoadResult_name {env : ConfigEnv} {root n u : String} {srv : MockServer}
    (h : svcLoadResult env root n u = some srv) : srv.serviceName = n := by
  cases hl : loadServiceConfig env n with
  | none => simp [svcLoadResult, hl] at h
  | some cfg =>
    by_cases h1 : validateServiceConfig cfg (root ++ "/" ++ n ++ "/config.yaml") = []
    · cases hm : loadMockConfigs env n u with
      | none => simp [svcLoadResult, hl, hm, h1] at h
      | some mocks =>
        by_cases h2 : validateMockConfigs mocks
            (root ++ "/" ++ n ++ "/usecases/" ++ u ++ "/all.json") = []
        · have heq : newMockServer n cfg.port mocks cfg = srv := by
            simpa [svcLoadResult, hl, hm, h1, h2] using h
          rw [← heq]
          rfl
        · simp [svcLoadResult, hl, hm, h1, h2] at h
    · simp [svcLoadResult, hl, h1] at h

theorem addServer_lookup_other (st : ManagerState) (srv : MockServer) (n : String)
    (hne : n ≠ srv.serviceName) :
    assocLookup (addServer st srv).serviceMap n = assocLookup st.serviceMap n := by
  cases hlk : assocLookup st.serviceMap srv.serviceName with
  | none =>
    rw [addServer_eq_fresh st srv hlk]
    exact assocLookup_insert_ne _ _ _ _ hne
  | some existing =>
    rw [addServer_eq_replace st srv existing hlk]
    exact assocLookup_insert_ne _ _ _ _ hne

theorem addServer_mem_other (st : ManagerState) (srv : MockServer) (s : MockServer)
    (hs : s ∈ st.servers) (hne : s.serviceName ≠ srv.serviceName) :
    s ∈ (addServer st srv).servers := by
  cases hlk : assocLookup st.serviceMap srv.serviceName with
  | none =>
    rw [addServer_eq_fresh st srv hlk]
    exact List.mem_append_left _ hs
  | some existing =>
    rw [addServer_eq_replace st srv existing hlk]
    exact List.mem_append_left _ (mem_removeFirstByName_of_ne hs hne)

theorem addServer_mem_back (st : ManagerState) (srv : MockServer) (s : MockServer)
    (hs : s ∈ (addServer st srv).servers) : s = srv ∨ s ∈ st.servers := by
  cases hlk : assocLookup st.serviceMap srv.serviceName with
  | none =>
    rw [addServer_eq_fresh st srv hlk] at hs
    rcases List.mem_append.mp hs with h1 | h2
    · exact Or.inr h1
    · exact Or.inl (by simpa using h2)
  | some existing =>
    rw [addServer_eq_replace st srv existing hlk] at hs
    rcases List.mem_append.mp hs with h1 | h2
    · exact Or.inr ((removeFirstByName_sublist _ _).mem h1)
    · exact Or.inl (by simpa using h2)

theorem addServer_portMap_nodup (st : ManagerState) (srv : MockServer)
    (h : st.portMap.Nodup) : (addServer st srv).portMap.Nodup := by
  cases hlk : assocLookup st.serviceMap srv.serviceName with
  | none =>
    rw [addServer_eq_fresh st srv hlk]
    exact portInsert_nodup h
  | some existing =>
    rw [addServer_eq_replace st srv existing hlk]
    exact portInsert_nodup (h.erase _)

theorem removeService_lookup_other (st : ManagerState) (n n2 : String) (hne : n2 ≠ n) :
    assocLookup (removeService st n).serviceMap n2 = assocLookup st.serviceMap n2 := by
  cases hlk : assocLookup st.serviceMap n with
  | none => rw [removeService, hlk]
  | some server =>
    rw [removeService, hlk]
    exact assocLookup_erase_ne _ _ _ hne

theorem removeService_mem_other (st : ManagerState) (n : String) (s : MockServer)
    (hs : s ∈ st.servers) (hne : s.serviceName ≠ n) :
    s ∈ (removeService st n).servers := by
  cases hlk : assocLookup st.serviceMap n with
  | none => rw [removeService, hlk]; exact hs
  | some server =>
    rw [removeService, hlk]
    exact mem_removeFirstByName_of_ne hs hne

theorem removeService_mem_back (st : ManagerState) (n : String) (s : MockServer)
    (hs : s ∈ (removeService st n).servers) : s ∈ st.servers := by
  cases hlk : assocLookup st.serviceMap n with
  | none => rw [removeService, hlk] at hs; exact hs
  | some server =>
    rw [removeService, hlk] at hs
    exact (removeFirstByName_sublist _ _).mem hs

theorem removeService_portMap_nodup (st : ManagerState) (n : String)
    (h : st.portMap.Nodup) : (removeService st n).portMap.Nodup := by
  cases hlk : assocLookup st.serviceMap n with
  | none => rw [removeService, hlk]; exact h
  | some server =>
    rw [removeService, hlk]
    exact h.erase _

theorem reloadService_lookup_other (env : ConfigEnv) (st : ManagerState) (n u n2 : String)
    (hne : n2 ≠ n) :
    assocLookup (reloadService env st n u).1.serviceMap n2 = assocLookup st.serviceMap n2 := by
  rw [reloadService_fst]
  cases h : svcLoadResult env st.configRoot n u with
  | none => rfl
  | some srv =>
    have hname := svcLoadResult_name h
    exact addServer_lookup_other st srv n2 (by rw [hname]; exact hne)

theorem reloadService_mem_other (env : ConfigEnv) (st : ManagerState) (n u : String)
    (s : MockServer) (hs : s ∈ st.servers) (hne : s.serviceName ≠ n) :
    s ∈ (reloadService env st n u).1.servers := by
  rw [reloadService_fst]
  cases h : svcLoadResult env st.configRoot n u with
  | none => exact hs
  | some srv =>
    have hname := svcLoadResult_name h
    exact addServer_mem_other st srv s hs (by rw [hname]; exact hne)

theorem reloadService_mem_back (env : ConfigEnv) (st : ManagerState) (n u : String)
    (s : MockServer) (hs : s ∈ (reloadService env st n u).1.servers) :
    s ∈ st.servers ∨ s.serviceName = n := by
  rw [reloadService_fst] at hs
  cases h : svcLoadResult env st.configRoot n u with
  | none =>
    rw [h] at hs
    exact Or.inl hs
  | some srv =>
    rw [h] at hs
    rcases addServer_mem_back st srv s hs with rfl | hmem
    · exact Or.inr (svcLoadResult_name h)
    · exact Or.inl hmem

theorem reloadService_mapsInv (env : ConfigEnv) (st : ManagerState) (n u : String)
    (hm : MapsInv st) : MapsInv (reloadService env st n u).1 := by
  rw [reloadService_fst]
  cases h : svcLoadResult env st.configRoot n u with
  | none => exact hm
  | some srv => exact addServer_mapsInv st srv hm

theorem reloadService_portMap_nodup (env : ConfigEnv) (st : ManagerState) (n u : String)
    (h : st.portMap.Nodup) : (reloadService env st n u).1.portMap.Nodup := by
  rw [reloadService_fst]
  cases hs : svcLoadResult env st.configRoot n u with
  | none => exact h
  | some srv => exact addServer_portMap_nodup st srv h

theorem reloadServices_lookup_other (env : ConfigEnv) (refs : List ServiceReference) :
    ∀ (st : ManagerState) (n : String), n ∉ refs.map ServiceReference.name →
      assocLookup (reloadServices env st refs).serviceMap n = assocLookup st.serviceMap n := by
  induction refs with
  | nil => intro st n _; rfl
  | cons ref rest ih =>
    intro st n hn
    rw [List.map_cons, List.mem_cons] at hn
    push_neg at hn
    rw [reloadServices, ih _ n hn.2, reloadService_lookup_other env st ref.name ref.usecase n hn.1]

theorem reloadServices_mem_other (env : ConfigEnv) (refs : List ServiceReference) :
    ∀ (st : ManagerState) (s : MockServer), s ∈ st.servers →
      s.serviceName ∉ refs.map ServiceReference.name →
      s ∈ (reloadServices env st refs).servers := by
  induction refs with
  | nil => intro st s hs _; exact hs
  | cons ref rest ih =>
    intro st s hs hn
    rw [List.map_cons, List.mem_cons] at hn
    push_neg at hn
    rw [reloadServices]
    exact ih _ s (reloadService_mem_other env st ref.name ref.usecase s hs hn.1) hn.2

theorem reloadServices_mem_back (env : ConfigEnv) (refs : List ServiceReference) :
    ∀ (st : ManagerState) (s : MockServer), s ∈ (reloadServices env st refs).servers →
      s ∈ st.servers ∨ s.serviceName ∈ refs.map ServiceReference.name := by
  induction refs with
  | nil => intro st s hs; exact Or.inl hs
  | cons ref rest ih =>
    intro st s hs
    rw [reloadServices] at hs
    rcases ih _ s hs with h1 | h2
    · rcases reloadService_mem_back env st ref.name ref.usecase s h1 with h3 | h4
      · exact Or.inl h3
      · exact Or.inr (by rw [List.map_cons, List.mem_cons]; exact Or.inl h4)
    · exact Or.inr (by rw [List.map_cons, List.mem_cons]; exact Or.inr h2)

theorem reloadServices_mapsInv (env : ConfigEnv) (refs : List ServiceReference) :
    ∀ st : ManagerState, MapsInv st → MapsInv (reloadServices env st refs) := by
  induction refs with
  | nil => intro st hm; exact hm
  | cons ref rest ih =>
    intro st hm
    rw [reloadServices]
    exact ih _ (reloadService_mapsInv env st ref.name ref.usecase hm)

theorem reloadServices_portMap_nodup (env : ConfigEnv) (refs : List ServiceReference) :
    ∀ st : ManagerState, st.portMap.Nodup → (reloadServices env st refs).portMap.Nodup := by
  induction refs with
  | nil => intro st h; exact h
  | cons ref rest ih =>
    intro st h
    rw [reloadServices]
    exact ih _ (reloadService_portMap_nodup env st ref.name ref.usecase h)

theorem validateRefs_eq_nil (fileName : String) (refs : List ServiceReference) :
    ∀ (i : Nat) (seen : List String), validateRefs fileName i seen refs = [] →
      (refs.map ServiceReference.name).Nodup
      ∧ ∀ x ∈ refs.map ServiceReference.name, x ∉ seen := by
  induction refs with
  | nil => intro i seen _; exact ⟨List.nodup_nil, by simp⟩
  | cons ref rest ih =>
    intro i seen h
    rw [validateRefs] at h
    rw [List.append_assoc, List.append_assoc, List.append_eq_nil] at h
    obtain ⟨-, h2⟩ := h
    rw [List.append_eq_nil] at h2
    obtain ⟨-, h3⟩ := h2
    rw [List.append_eq_nil] at h3
    obtain ⟨hdup, hrec⟩ := h3
    have hnotseen : ref.name ∉ seen := by
      intro hmem
      rw [if_pos (List.elem_eq_true_of_mem hmem)] at hdup
      cases hdup
    obtain ⟨hnd, hnotin⟩ := ih (i + 1) (ref.name :: seen) hrec
    refine ⟨?_, ?_⟩
    · rw [List.map_cons, List.nodup_cons]
      exact ⟨fun hmem => (hnotin _ hmem) (List.mem_cons_self _ _), hnd⟩
    · intro x hx
      rw [List.map_cons, List.mem_cons] at hx
      rcases hx with rfl | hx2
      · exact hnotseen
      · exact fun hmem => (hnotin x hx2) (List.mem_cons_of_mem _ hmem)

theorem validateGlobalConfig_names_nodup {cfg : GlobalConfig} {path : String}
    (h : validateGlobalConfig cfg path = []) :
    (cfg.services.map ServiceReference.name).Nodup := by
  rw [validateGlobalConfig, List.append_eq_nil] at h
  exact (validateRefs_eq_nil (baseName path) cfg.services 0 [] h.2).1

theorem reloadServices_present (env : ConfigEnv) (refs : List ServiceReference) :
    ∀ (st : ManagerState) (ref : ServiceReference) (srv : MockServer), ref ∈ refs →
      (refs.map ServiceReference.name).Nodup →
      svcLoadResult env st.configRoot ref.name ref.usecase = some srv →
      assocLookup (reloadServices env st refs).serviceMap ref.name = some srv
      ∧ srv ∈ (reloadServices env st refs).servers := by
  induction refs with
  | nil => intro st ref srv hmem; simp at hmem
  | cons hd rest ih =>
    intro st ref srv hmem hnd hsvc
    rw [List.map_cons, List.nodup_cons] at hnd
    rcases List.mem_cons.mp hmem with rfl | htail
    · -- ref is processed first; later refs have different names
      rw [reloadServices]
      have hstep : (reloadService env st ref.name ref.usecase).1 = addServer st srv := by
        rw [reloadService_fst, hsvc]
      rw [hstep]
      have hname := svcLoadResult_name hsvc
      constructor
      · rw [reloadServices_lookup_other env rest _ ref.name hnd.1]
        cases hlk : assocLookup st.serviceMap srv.serviceName with
        | none =>
          rw [addServer_eq_fresh st srv hlk]
          rw [← hname]
          exact assocLookup_insert_self _ _ _
        | some existing =>
          rw [addServer_eq_replace st srv existing hlk]
          rw [← hname]
          exact assocLookup_insert_self _ _ _
      · refine reloadServices_mem_other env rest _ srv ?_ (by rw [hname]; exact hnd.1)
        cases hlk : assocLookup st.serviceMap srv.serviceName with
        | none =>
          rw [addServer_eq_fresh st srv hlk]
          exact List.mem_append_right _ (List.mem_singleton_self _)
        | some existing =>
          rw [addServer_eq_replace st srv existing hlk]
          exact List.mem_append_right _ (List.mem_singleton_self _)
    · rw [reloadServices]
      refine ih _ ref srv htail hnd.2 ?_
      rw [reloadService_configRoot]
      exact hsvc

theorem removeStale_lookup_desired (desired : List String) (current : List String) :
    ∀ (st : ManagerState) (n : String), n ∈ desired →
      assocLookup (removeStale desired st current).serviceMap n
        = assocLookup st.serviceMap n := by
  induction current with
  | nil => intro st n _; rfl
  | cons n2 rest ih =>
    intro st n hn
    rw [removeStale]
    by_cases hc : desired.contains n2
    · rw [if_pos hc]
      exact ih st n hn
    · rw [if_neg hc]
      have hne : n ≠ n2 := by
        rintro rfl
        exact hc (List.elem_eq_true_of_mem hn)
      rw [ih _ n hn, removeService_lookup_other st n2 n hne]

theorem removeStale_mem_desired (desired : List String) (current : List String) :
    ∀ (st : ManagerState) (s : MockServer), s ∈ st.servers → s.serviceName ∈ desired →
      s ∈ (removeStale desired st current).servers := by
  induction current with
  | nil => intro st s hs _; exact hs
  | cons n2 rest ih =>
    intro st s hs hn
    rw [removeStale]
    by_cases hc : desired.contains n2
    · rw [if_pos hc]
      exact ih st s hs hn
    · rw [if_neg hc]
      have hne : s.serviceName ≠ n2 := by
        rintro rfl
        exact hc (List.elem_eq_true_of_mem hn)
      exact ih _ s (removeService_mem_other st n2 s hs hne) hn

theorem removeStale_mem_back (desired : List String) (current : List String) :
    ∀ (st : ManagerState) (s : MockServer),
      s ∈ (removeStale desired st current).servers → s ∈ st.servers := by
  induction current with
  | nil => intro st s hs; exact hs
  | cons n2 rest ih =>
    intro st s hs
    rw [removeStale] at hs
    by_cases hc : desired.contains n2
    · rw [if_pos hc] at hs
      exact ih st s hs
    · rw [if_neg hc] at hs
      exact removeService_mem_back st n2 s (ih _ s hs)

theorem removeService_preserves_absent (st : ManagerState) (n3 n : String) (p : Int)
    (hlk : assocLookup st.serviceMap n = none)
    (hsrv : ∀ s ∈ st.servers, s.serviceName ≠ n)
    (hport : p ∉ st.portMap) :
    assocLookup (removeService st n3).serviceMap n = none
    ∧ (∀ s ∈ (removeService st n3).servers, s.serviceName ≠ n)
    ∧ p ∉ (removeService st n3).portMap := by
  cases hlk3 : assocLookup st.serviceMap n3 with
  | none =>
    rw [removeService, hlk3]
    exact ⟨hlk, hsrv, hport⟩
  | some server =>
    rw [removeService, hlk3]
    have hne : n ≠ n3 := by
      rintro rfl
      rw [hlk] at hlk3
      cases hlk3
    refine ⟨?_, ?_, ?_⟩
    · rw [assocLookup_erase_ne _ _ _ hne]
      exact hlk
    · exact fun s hs => hsrv s ((removeFirstByName_sublist _ _).mem hs)
    · exact fun hmem => hport ((List.erase_sublist _ _).subset hmem)

theorem removeStale_preserves_absent (desired : List String) (current : List String) :
    ∀ (st : ManagerState) (n : String) (p : Int),
      assocLookup st.serviceMap n = none →
      (∀ s ∈ st.servers, s.serviceName ≠ n) →
      p ∉ st.portMap →
      assocLookup (removeStale desired st current).serviceMap n = none
      ∧ (∀ s ∈ (removeStale desired st current).servers, s.serviceName ≠ n)
      ∧ p ∉ (removeStale desired st current).portMap := by
  induction current with
  | nil => intro st n p h1 h2 h3; exact ⟨h1, h2, h3⟩
  | cons n2 rest ih =>
    intro st n p h1 h2 h3
    rw [removeStale]
    by_cases hc : desired.contains n2
    · rw [if_pos hc]
      exact ih st n p h1 h2 h3
    · rw [if_neg hc]
      obtain ⟨h1', h2', h3'⟩ := removeService_preserves_absent st n2 n p h1 h2 h3
      exact ih _ n p h1' h2' h3'

theorem removeStale_removed (desired : List String) (current : List String) :
    ∀ (st : ManagerState) (n : String) (s : MockServer),
      MapsInv st → st.portMap.Nodup → n ∈ current → n ∉ desired →
      assocLookup st.serviceMap n = some s →
      assocLookup (removeStale desired st current).serviceMap n = none
      ∧ (∀ s2 ∈ (removeStale desired st current).servers, s2.serviceName ≠ n)
      ∧ s.port ∉ (removeStale desired st current).portMap := by
  induction current with
  | nil => intro st n s _ _ hmem; simp at hmem
  | cons n2 rest ih =>
    intro st n s hm hpn hmem hnd hlk
    obtain ⟨m1, m2, m3, m4⟩ := hm
    rw [removeStale]
    by_cases hc : desired.contains n2
    · rw [if_pos hc]
      have hne : n ≠ n2 := by
        rintro rfl
        exact hnd (List.mem_of_elem_eq_true hc)
      have hmem2 : n ∈ rest := by
        rcases List.mem_cons.mp hmem with rfl | h
        · exact absurd rfl hne
        · exact h
      exact ih st n s ⟨m1, m2, m3, m4⟩ hpn hmem2 hnd hlk
    · rw [if_neg hc]
      by_cases heq : n2 = n
      · subst heq
        -- the stale service is removed at this step
        have hstep : removeService st n2 =
            { st with
              serviceMap := assocErase st.serviceMap n2,
              portMap := st.portMap.erase s.port,
              servers := removeFirstByName st.servers n2 } := by
          rw [removeService, hlk]
        rw [hstep]
        have habs1 : assocLookup (assocErase st.serviceMap n2) n2 = none :=
          assocLookup_erase_self _ _ m4
        have habs2 : ∀ s2 ∈ removeFirstByName st.servers n2, s2.serviceName ≠ n2 :=
          fun s2 hs2 heq2 =>
            not_mem_names_removeFirstByName m1 (List.mem_map.mpr ⟨s2, hs2, heq2⟩)
        have habs3 : s.port ∉ st.portMap.erase s.port := hpn.not_mem_erase
        exact removeStale_preserves_absent desired rest _ n2 s.port habs1 habs2 habs3
      · -- a different stale service is removed first
        have hmem2 : n ∈ rest := by
          rcases List.mem_cons.mp hmem with rfl | h
          · exact absurd rfl (fun he => heq he.symm)
          · exact h
        have hlk2 : assocLookup (removeService st n2).serviceMap n = some s := by
          rw [removeService_lookup_other st n2 n (fun he => heq he.symm)]
          exact hlk
        exact ih _ n s (removeService_mapsInv st n2 ⟨m1, m2, m3, m4⟩)
          (removeService_portMap_nodup st n2 hpn) hmem2 hnd hlk2

theorem reloadGlobalConfig_converges (env : ConfigEnv) (st : ManagerState)
    (cfg : GlobalConfig) (hg : env.globalCfg = some cfg)
    (hv : validateGlobalConfig cfg (globalConfigPath st) = [])
    (hm : MapsInv st) (hpn : st.portMap.Nodup) :
    (reloadGlobalConfig env st).2 = none
    ∧ (∀ s ∈ st.servers, s.serviceName ∉ cfg.services.map ServiceReference.name →
        assocLookup (reloadGlobalConfig env st).1.serviceMap s.serviceName = none
        ∧ (∀ s2 ∈ (reloadGlobalConfig env st).1.servers, s2.serviceName ≠ s.serviceName)
        ∧ s.port ∉ (reloadGlobalConfig env st).1.portMap)
    ∧ (∀ ref ∈ cfg.services, ∀ srv : MockServer,
        svcLoadResult env st.configRoot ref.name ref.usecase = some srv →
        assocLookup (reloadGlobalConfig env st).1.serviceMap ref.name = some srv
        ∧ srv ∈ (reloadGlobalConfig env st).1.servers)
    ∧ (∀ s2 ∈ (reloadGlobalConfig env st).1.servers,
        s2.serviceName ∈ cfg.services.map ServiceReference.name) := by
  have hfst : (reloadGlobalConfig env st).1 =
      removeStale (cfg.services.map ServiceReference.name)
        (reloadServices env st cfg.services)
        (st.servers.map MockServer.serviceName) := by
    simp [reloadGlobalConfig, hg, hv]
  have hsnd : (reloadGlobalConfig env st).2 = none := by
    simp [reloadGlobalConfig, hg, hv]
  have hndcfg := validateGlobalConfig_names_nodup hv
  have hremoved : ∀ s ∈ st.servers, s.serviceName ∉ cfg.services.map ServiceReference.name →
      assocLookup (reloadGlobalConfig env st).1.serviceMap s.serviceName = none
      ∧ (∀ s2 ∈ (reloadGlobalConfig env st).1.servers, s2.serviceName ≠ s.serviceName)
      ∧ s.port ∉ (reloadGlobalConfig env st).1.portMap := by
    intro s hs hstale
    rw [hfst]
    have hlk1 : assocLookup (reloadServices env st cfg.services).serviceMap s.serviceName
        = some s := by
      rw [reloadServices_lookup_other env cfg.services st s.serviceName hstale]
      exact hm.2.1 s hs
    exact removeStale_removed _ _ _ s.serviceName s
      (reloadServices_mapsInv env cfg.services st hm)
      (reloadServices_portMap_nodup env cfg.services st hpn)
      (List.mem_map.mpr ⟨s, hs, rfl⟩) hstale hlk1
  refine ⟨hsnd, hremoved, ?_, ?_⟩
  · intro ref href srv hsvc
    rw [hfst]
    have hpres := reloadServices_present env cfg.services st ref srv href hndcfg hsvc
    have hnref : ref.name ∈ cfg.services.map ServiceReference.name :=
      List.mem_map.mpr ⟨ref, href, rfl⟩
    constructor
    · rw [removeStale_lookup_desired _ _ _ ref.name hnref]
      exact hpres.1
    · refine removeStale_mem_desired _ _ _ srv hpres.2 ?_
      rw [svcLoadResult_name hsvc]
      exact hnref
  · intro s2 hs2
    by_contra hnot
    have hback : s2 ∈ (reloadServices env st cfg.services).servers := by
      rw [hfst] at hs2
      exact removeStale_mem_back _ _ _ s2 hs2
    rcases reloadServices_mem_back env cfg.services st s2 hback with hold | hnew
    · exact ((hremoved s2 hold hnot).2.1 s2 hs2) rfl
    · exact hnot hnew

/-! ## Theorems: C3 (method/path matching) -/

/-- C3 counterexample: a mock configured with method `get` does not match
a request with method `GET` even on the same path, although the two
methods are equal case-insensitively — the handler compares methods with
plain string equality. -/
theorem mockMatches_method_case_counterexample :
    mockMatches ⟨"GET", "/x", none⟩ ⟨⟨"/x", "get", none⟩, ⟨none, 200, []⟩⟩ = false
      ∧ strToUpper "get" = strToUpper "GET" := by
  constructor
  · simp [mockMatches]
  · decide

/-- C3 (amended): for every request and mock entry, a match requires the
request method to equal the mock's method exactly (case-sensitively — no
normalization is applied) and the path to equal exactly; for entries with
no body matcher this is exactly the match predicate. -/
theorem mockMatches_method_path (r : HttpRequest) (m : MockConfig) :
    (mockMatches r m = true → r.urlPath = m.request.path ∧ r.method = m.request.method)
    ∧ (m.request.body = none →
        (mockMatches r m = true ↔
          r.urlPath = m.request.path ∧ r.method = m.request.method)) := by
  constructor
  · intro h
    rw [mockMatches, Bool.and_eq_true, Bool.and_eq_true] at h
    exact ⟨by simpa using h.1.1, by simpa using h.1.2⟩
  · intro hb
    simp [mockMatches, hb]

/-- Witness for `mockMatches_method_path`: exact-case method and path do
match. -/
theorem mockMatches_method_path_witness :
    mockMatches ⟨"GET", "/x", none⟩ ⟨⟨"/x", "GET", none⟩, ⟨none, 200, []⟩⟩ = true :=
  ((mockMatches_method_path ⟨"GET", "/x", none⟩
    ⟨⟨"/x", "GET", none⟩, ⟨none, 200, []⟩⟩).2 rfl).mpr ⟨rfl, rfl⟩

/-! ## Theorems: C5 (body subset matching) -/

/-- C5: the mock body predicate holds iff every key of the expected body
is present in the actual body with a matching value, where an expected
object value recurses with the same rule against an actual object value
and every other expected value requires exact (structural) equality;
extra keys in the actual body are ignored.  Stated for canonical JSON
values (objects with strictly sorted keys), the faithful image of Go
maps. -/
theorem matchesMockBody_iff_specBodyMatch (received expected : List (String × JsonValue))
    (hr : canonicalObj received = true) (he : canonicalObj expected = true) :
    matchesMockBody received expected = true ↔ SpecBodyMatch received expected :=
  matchesMockBody_iff_spec received expected hr he

/-- Witness for `matchesMockBody_iff_specBodyMatch`: expected
`a ↦ 1` matches actual `a ↦ 1, b ↦ 2` (extra key ignored). -/
theorem matchesMockBody_iff_specBodyMatch_witness :
    SpecBodyMatch [("a", .num 1), ("b", .num 2)] [("a", .num 1)] :=
  (matchesMockBody_iff_specBodyMatch [("a", .num 1), ("b", .num 2)] [("a", .num 1)]
    (by simp [canonicalObj, canonical]) (by simp [canonicalObj, canonical])).mp
    (by simp [matchesMockBody, matchesValue, lookupKey, deepEqual])

/-- Spec example: expected `a ↦ 1` does not match actual `b ↦ 2`. -/
theorem matchesMockBody_missing_key_example :
    matchesMockBody [("b", .num 2)] [("a", .num 1)] = false := by
  simp [matchesMockBody, matchesValue, lookupKey, deepEqual]

/-- Spec example: nested objects recurse — expected `a ↦ (x ↦ 1)` matches
actual `a ↦ (x ↦ 1, y ↦ 2)`. -/
theorem matchesMockBody_nested_example :
    matchesMockBody [("a", .obj [("x", .num 1), ("y", .num 2)])]
      [("a", .obj [("x", .num 1)])] = true := by
  simp [matchesMockBody, matchesValue, lookupKey, deepEqual]

/-! ## Theorems: C8 (first match wins, 404 fallback) -/

/-- C8: the handler responds with the configured status/headers/body of
the first mock in list order whose predicate matches the request, and
when no mock matches it responds with status 404 and the plain-text body
"No matching mock found". -/
theorem serveHTTP_first_match (mocks : List MockConfig) (r : HttpRequest) :
    ((∀ m ∈ mocks, mockMatches r m = false) →
      serveHTTP mocks r = ⟨404, [], .text "No matching mock found"⟩)
    ∧ (∀ i m, mocks.get? i = some m → mockMatches r m = true →
        (∀ j m2, j < i → mocks.get? j = some m2 → mockMatches r m2 = false) →
        serveHTTP mocks r =
          ⟨m.response.statusCode, m.response.headers, .jsonObj m.response.body⟩) :=
  serveHTTP_spec mocks r

/-- Witness for `serveHTTP_first_match`: with a GET mock first and a POST
mock second, a POST request is served by the second mock (the first does
not match), with its configured status. -/
theorem serveHTTP_first_match_witness :
    serveHTTP [⟨⟨"/x", "GET", none⟩, ⟨none, 200, []⟩⟩, ⟨⟨"/x", "POST", none⟩, ⟨none, 201, []⟩⟩]
      ⟨"POST", "/x", none⟩ = ⟨201, [], .jsonObj none⟩ := by
  have h := (serveHTTP_first_match
      [⟨⟨"/x", "GET", none⟩, ⟨none, 200, []⟩⟩, ⟨⟨"/x", "POST", none⟩, ⟨none, 201, []⟩⟩]
      ⟨"POST", "/x", none⟩).2 1 ⟨⟨"/x", "POST", none⟩, ⟨none, 201, []⟩⟩ rfl
      (by simp [mockMatches]) ?_
  · exact h
  · intro j m2 hj hg
    have hj0 : j = 0 := by omega
    subst hj0
    simp only [List.get?] at hg
    cases hg
    simp [mockMatches]

/-! ## Theorems: C4 (fleet map invariant) -/

/-- C4 counterexample: starting from an empty manager, adding services A
and B configured with the same port 8080 and then reloading a global
config that names only B (whose reload fails) leaves B running while its
port entry has been deleted from the port map — so a running server ends
up with no entry in the port map, falsifying the claimed invariant for
sequences with shared ports. -/
theorem fleet_shared_port_counterexample :
    cexFinal.servers.map MockServer.serviceName = ["B"]
      ∧ cexFinal.portMap = []
      ∧ ¬ (∀ s ∈ cexFinal.servers, s.port ∈ cexFinal.portMap) := by
  refine ⟨by decide, by decide, by decide⟩

/-- C4 (amended): after every sequence of AddServer / ReloadService /
ReloadGlobalConfig operations in which no successfully (re)loaded server
ever shares its port with a concurrently running server of a different
name, the fleet invariant holds: server names are unique, every running
server has exactly one serviceMap entry (mapping its name to itself) and
its port in the portMap, both maps contain only entries of running
servers, and all ports are distinct. -/
theorem applyOps_fleet_invariant (ops : List FleetOp) (st : ManagerState)
    (hinv : FleetInv st) (hok : OpsPortsOk st ops) : FleetInv (applyOps st ops) :=
  applyOps_fleetInv ops st hinv hok

/-- Witness for `applyOps_fleet_invariant`: adding one server to a fresh
manager maintains the invariant. -/
theorem applyOps_fleet_invariant_witness :
    FleetInv (applyOps (newServerManager "root") [FleetOp.add ⟨"A", 8081, [], dly0⟩]) :=
  applyOps_fleet_invariant [FleetOp.add ⟨"A", 8081, [], dly0⟩] (newServerManager "root")
    (newServerManager_fleetInv "root")
    ⟨fun s hs => absurd hs (by simp [newServerManager]), trivial⟩

/-! ## Theorems: C6 (failed reload leaves state untouched) -/

/-- C6: whenever ReloadService returns an error — the service config
failing to load, the service config failing validation, the mock list
failing to load (including loading empty), or the mocks failing
validation — the manager state is returned exactly unchanged: servers
list, both maps, and config root are all as before the call. -/
theorem reloadService_error_leaves_state (env : ConfigEnv) (st : ManagerState)
    (n u : String) (e : ReloadError) (h : (reloadService env st n u).2 = some e) :
    (reloadService env st n u).1 = st :=
  reloadService_error_state env st n u e h

/-- Witness for `reloadService_error_leaves_state`: reloading a service
whose config is missing returns the state unchanged. -/
theorem reloadService_error_leaves_state_witness :
    (reloadService cexEnv (newServerManager "root") "A" "u").1 = newServerManager "root" :=
  reloadService_error_leaves_state cexEnv (newServerManager "root") "A" "u"
    .loadServiceError (by decide)

/-! ## Theorems: C7 (global reload convergence) -/

/-- C7: when the global config loads and validates, ReloadGlobalConfig
succeeds, and afterwards: every previously running service not named in
the config is gone from the serviceMap, the servers list and the portMap
(its port freed); every named service whose per-service load succeeds
(failures of other services notwithstanding) is running with exactly the
server built from the config's usecase; and every running server is named
in the config. -/
theorem reloadGlobalConfig_convergence (env : ConfigEnv) (st : ManagerState)
    (cfg : GlobalConfig) (hg : env.globalCfg = some cfg)
    (hv : validateGlobalConfig cfg (globalConfigPath st) = [])
    (hm : MapsInv st) (hpn : st.portMap.Nodup) :
    (reloadGlobalConfig env st).2 = none
    ∧ (∀ s ∈ st.servers, s.serviceName ∉ cfg.services.map ServiceReference.name →
        assocLookup (reloadGlobalConfig env st).1.serviceMap s.serviceName = none
        ∧ (∀ s2 ∈ (reloadGlobalConfig env st).1.servers, s2.serviceName ≠ s.serviceName)
        ∧ s.port ∉ (reloadGlobalConfig env st).1.portMap)
    ∧ (∀ ref ∈ cfg.services, ∀ srv : MockServer,
        svcLoadResult env st.configRoot ref.name ref.usecase = some srv →
        assocLookup (reloadGlobalConfig env st).1.serviceMap ref.name = some srv
        ∧ srv ∈ (reloadGlobalConfig env st).1.servers)
    ∧ (∀ s2 ∈ (reloadGlobalConfig env st).1.servers,
        s2.serviceName ∈ cfg.services.map ServiceReference.name) :=
  reloadGlobalConfig_converges env st cfg hg hv hm hpn

/-- Witness for `reloadGlobalConfig_convergence`: with A on 8081 and B on
8082 running, reloading a global config naming only B on usecase u3
leaves exactly B running on the u3 mocks, removes A from the service map
and frees A's port. -/
theorem reloadGlobalConfig_convergence_witness :
    assocLookup (reloadGlobalConfig wEnv wSt0).1.serviceMap "A" = none
    ∧ (8081 : Int) ∉ (reloadGlobalConfig wEnv wSt0).1.portMap
    ∧ assocLookup (reloadGlobalConfig wEnv wSt0).1.serviceMap "B" = some srvB3
    ∧ srvB3 ∈ (reloadGlobalConfig wEnv wSt0).1.servers := by
  have hmaps : MapsInv wSt0 := by
    refine ⟨by decide, ?_, ?_, by decide⟩
    · intro s hs
      simp only [wSt0] at hs
      rcases List.mem_cons.mp hs with rfl | hs2
      · rfl
      · rcases List.mem_cons.mp hs2 with rfl | hs3
        · rfl
        · exact absurd hs3 (List.not_mem_nil _)
    · intro p hp
      simp only [wSt0] at hp
      rcases List.mem_cons.mp hp with rfl | hp2
      · exact ⟨by simp [wSt0], rfl⟩
      · rcases List.mem_cons.mp hp2 with rfl | hp3
        · exact ⟨by simp [wSt0], rfl⟩
        · exact absurd hp3 (List.not_mem_nil _)
  have h := reloadGlobalConfig_convergence wEnv wSt0 ⟨[⟨"B", "u3"⟩]⟩ rfl (by decide)
    hmaps (by decide)
  refine ⟨?_, ?_, ?_, ?_⟩
  · exact (h.2.1 srvA (by simp [wSt0]) (by decide)).1
  · exact (h.2.1 srvA (by simp [wSt0]) (by decide)).2.2
  · exact (h.2.2.1 ⟨"B", "u3"⟩ (by simp) srvB3 rfl).1
  · exact (h.2.2.1 ⟨"B", "u3"⟩ (by simp) srvB3 rfl).2

end MockHarbor
